import Mathlib

/-!
Verification of the workspace file gateway (`handleWorkspaceHttpRequest`).

The gateway is a Node.js HTTP handler.  We shallowly embed it in Lean:

* JS strings are modelled as `List Nat` of UTF-16 code units (`JSStr`); the
  strings the handler manipulates stay in the BMP, where code units coincide
  with code points.  The latin1 ("binary") encoding used by the multipart
  branch maps byte `b` to code unit `b`, so latin1 strings are byte lists.
* `path.posix.join` / `path.posix.normalize` are modelled segment-wise,
  following the Node implementation (empty parts filtered, `.` and `..`
  resolved, `..` above the root of an absolute path dropped).
* The filesystem is a tree of directories and files; every filesystem call
  the handler makes is recorded in an access trace.
* Authentication is an external collaborator (spec section 1); we model the
  behaviour of the handler after a successful authorization.

All definitions are computable by structural recursion (fuel is used where
the recursion is not structural) so that concrete runs evaluate by `decide`.
-/

/-- A JS string as its list of UTF-16 code units. -/
abbrev JSStr := List Nat

/-- Embed a Lean string literal as a `JSStr` (all literals used are in the BMP). -/
def uc (s : String) : JSStr := s.toList.map Char.toNat

/-- JS `a.startsWith(b)`. -/
def jsStartsWith (a b : JSStr) : Bool := b.isPrefixOf a

/-- JS `a.endsWith(b)` specialised to a single code unit. -/
def jsEndsWithChar (a : JSStr) (c : Nat) : Bool := a.getLast? = some c

/-- JS `s.includes(pat)`: `pat` occurs contiguously in `s`. -/
def containsSeq (s pat : List Nat) : Bool :=
  if pat.isPrefixOf s then true
  else match s with
    | [] => false
    | _ :: rest => containsSeq rest pat

/-- First occurrence index of `pat` in `s`, if any. -/
def idxAux (pat : List Nat) : List Nat → Option Nat
  | [] => if pat = [] then some 0 else none
  | s@(_ :: rest) => if pat.isPrefixOf s then some 0 else (idxAux pat rest).map (· + 1)

/-- JS `s.indexOf(pat)` (−1 when absent). -/
def jsIndexOfSeq (s pat : List Nat) : Int :=
  match idxAux pat s with
  | some n => (n : Int)
  | none => -1

/-- JS `s.lastIndexOf(pat)` (−1 when absent). -/
def jsLastIndexOfSeq (s pat : List Nat) : Int :=
  match (List.range (s.length + 1)).reverse.find? (fun p => pat.isPrefixOf (s.drop p)) with
  | some p => (p : Int)
  | none => -1

/-- JS `s.slice(a, b)`: negative indices count from the end, then clamp. -/
def jsSlice (s : List Nat) (a b : Int) : List Nat :=
  let len : Int := s.length
  let na : Int := if a < 0 then max (len + a) 0 else min a len
  let nb : Int := if b < 0 then max (len + b) 0 else min b len
  (s.drop na.toNat).take (nb.toNat - na.toNat)

/-- JS `s.split(sep)` for a nonempty separator, fuelled to keep the recursion
structural; `jsSplit` supplies enough fuel.  An empty separator never occurs
in the gateway (the separator is always a double dash plus the boundary). -/
def splitSeqF (sep : List Nat) : Nat → List Nat → List (List Nat)
  | _, [] => [[]]
  | 0, s => [s]
  | fuel + 1, s@(c :: rest) =>
    if sep ≠ [] ∧ sep.isPrefixOf s then [] :: splitSeqF sep fuel (s.drop sep.length)
    else
      match splitSeqF sep fuel rest with
      | h :: t => (c :: h) :: t
      | [] => [[c]]

/-- JS `s.split(sep)`. -/
def jsSplit (s sep : List Nat) : List (List Nat) := splitSeqF sep s.length s

/-- JS `s.replace(/^\/+/, "")`. -/
def stripLeadingSlashes (s : JSStr) : JSStr := s.dropWhile (· = 47)

/-- JS `s.replace(/^text\//, "")`. -/
def stripTextPrefix (s : JSStr) : JSStr :=
  if (uc "text/").isPrefixOf s then s.drop 5 else s

/-- Split on a single code unit (used for path segments, separator `/`). -/
def splitOnChar (c : Nat) : List Nat → List (List Nat)
  | [] => [[]]
  | x :: rest =>
    let r := splitOnChar c rest
    if x = c then [] :: r
    else
      match r with
      | h :: t => (x :: h) :: t
      | [] => [[x]]

/-- Join segments with `/` (Node `parts.join("/")`). -/
def joinSlash : List JSStr → JSStr
  | [] => []
  | [s] => s
  | s :: t :: rest => s ++ 47 :: joinSlash (t :: rest)

/-- Segment normalization from Node `path.posix.normalize` (`normalizeString`):
empty and `.` segments are dropped, `..` pops the previous segment; above the
top, `..` is kept for relative paths (`allowAbove`) and dropped for absolute
ones.  The accumulator holds the output segments in reverse. -/
def normSegs (allowAbove : Bool) (acc : List JSStr) : List JSStr → List JSStr
  | [] => acc.reverse
  | seg :: rest =>
    if seg = [] ∨ seg = uc "." then normSegs allowAbove acc rest
    else if seg = uc ".." then
      match acc with
      | [] => if allowAbove then normSegs allowAbove [uc ".."] rest else normSegs allowAbove [] rest
      | a :: as => if a = uc ".." then normSegs allowAbove (seg :: a :: as) rest else normSegs allowAbove as rest
    else normSegs allowAbove (seg :: acc) rest

/-- Node `path.posix.normalize`. -/
def normalizePath (s : JSStr) : JSStr :=
  if s = [] then uc "."
  else
    let isAbs := s.head? = some 47
    let trailing := s.getLast? = some 47
    let core := joinSlash (normSegs (!isAbs) [] (splitOnChar 47 s))
    if core = [] then (if isAbs then [47] else if trailing then uc "./" else uc ".")
    else
      let core2 := if trailing then core ++ [47] else core
      if isAbs then 47 :: core2 else core2

/-- Node `path.posix.join(a, b)`: empty parts are filtered, the rest joined
with `/` and normalized; the join of nothing is `.`. -/
def pathJoin (a b : JSStr) : JSStr :=
  let joined := joinSlash (([a, b].filter (· ≠ [])))
  if joined = [] then uc "." else normalizePath joined

/-! ### UTF-8 encoding and decoding

Text Write accumulates the request body with `body += chunk`, which decodes
the bytes as UTF-8 (`Buffer.prototype.toString`), and `writeFileSync(p, body,
"utf8")` re-encodes.  `readFileSync(p, "utf8")` decodes the file bytes.  Node
decoding never throws: invalid sequences become U+FFFD.  `decodeURIComponent`
decodes percent-escaped bytes as UTF-8 and throws on invalid input.  We model
bytes as `Nat` below 256 and code points as `Nat`. -/

/-- UTF-8 encoding of one code point (below 0x110000). -/
def utf8EncodeCh (c : Nat) : List Nat :=
  if c < 0x80 then [c]
  else if c < 0x800 then [0xC0 + c / 64, 0x80 + c % 64]
  else if c < 0x10000 then [0xE0 + c / 4096, 0x80 + c / 64 % 64, 0x80 + c % 64]
  else [0xF0 + c / 262144, 0x80 + c / 4096 % 64, 0x80 + c / 64 % 64, 0x80 + c % 64]

/-- UTF-8 encoding of a string, character by character. -/
def utf8EncodeL (cs : List Char) : List Nat :=
  match cs with
  | [] => []
  | c :: rest => utf8EncodeCh c.toNat ++ utf8EncodeL rest

/-- Is `b` a UTF-8 continuation byte. -/
def contB (b : Nat) : Bool := 0x80 ≤ b ∧ b < 0xC0

/-- Strict UTF-8 decoding of one scalar value: rejects stray continuation
bytes, overlong forms, surrogates and values above 0x10FFFF, exactly as a
conforming decoder does.  Returns the code point and the remaining bytes. -/
def decodeOne : List Nat → Option (Nat × List Nat)
  | [] => none
  | b :: rest =>
    if b < 0x80 then some (b, rest)
    else if b < 0xC2 then none
    else if b < 0xE0 then
      match rest with
      | b1 :: r => if contB b1 then some ((b - 0xC0) * 64 + (b1 - 0x80), r) else none
      | [] => none
    else if b < 0xF0 then
      match rest with
      | b1 :: b2 :: r =>
        if contB b1 ∧ contB b2 ∧ ¬(b = 0xE0 ∧ b1 < 0xA0) ∧ ¬(b = 0xED ∧ 0xA0 ≤ b1) then
          some ((b - 0xE0) * 4096 + (b1 - 0x80) * 64 + (b2 - 0x80), r)
        else none
      | _ => none
    else if b < 0xF5 then
      match rest with
      | b1 :: b2 :: b3 :: r =>
        if contB b1 ∧ contB b2 ∧ contB b3 ∧ ¬(b = 0xF0 ∧ b1 < 0x90) ∧ ¬(b = 0xF4 ∧ 0x90 ≤ b1) then
          some ((b - 0xF0) * 262144 + (b1 - 0x80) * 4096 + (b2 - 0x80) * 64 + (b3 - 0x80), r)
        else none
      | _ => none
    else none

/-- Lossy UTF-8 decoding with U+FFFD substitution (Node `toString("utf8")`);
on an invalid sequence one byte is consumed and replaced.  Fuelled on the
byte count. -/
def decodeRepl : Nat → List Nat → List Char
  | 0, _ => []
  | _ + 1, [] => []
  | fuel + 1, bs@(_ :: rest) =>
    match decodeOne bs with
    | some (c, r) => Char.ofNat c :: decodeRepl fuel r
    | none => Char.ofNat 0xFFFD :: decodeRepl fuel rest

/-- Node `buffer.toString("utf8")`. -/
def utf8DecodeReplace (bs : List Nat) : List Char := decodeRepl bs.length bs

/-- Strict UTF-8 decoding to code points; `none` on any invalid sequence. -/
def decodeStrictF : Nat → List Nat → Option (List Nat)
  | _, [] => some []
  | 0, _ :: _ => none
  | fuel + 1, bs =>
    match decodeOne bs with
    | some (c, r) => (decodeStrictF fuel r).map (c :: ·)
    | none => none

/-! ### decodeURIComponent

Percent escapes are turned into bytes, maximal byte runs are decoded as
strict UTF-8 (a failure throws `URIError`), other characters pass through.
Code points above 0xFFFF are kept as single units rather than surrogate
pairs; the gateway never inspects them. -/

/-- Value of a hex digit. -/
def hexVal (c : Nat) : Option Nat :=
  if 48 ≤ c ∧ c ≤ 57 then some (c - 48)
  else if 65 ≤ c ∧ c ≤ 70 then some (c - 55)
  else if 97 ≤ c ∧ c ≤ 102 then some (c - 87)
  else none

/-- Tokenize a percent-encoded string: `Sum.inr` is a decoded byte,
`Sum.inl` a literal character. -/
def pctTokens : List Nat → Option (List (Nat ⊕ Nat))
  | [] => some []
  | 37 :: h1 :: h2 :: rest =>
    match hexVal h1, hexVal h2 with
    | some a, some b => (pctTokens rest).map (.inr (a * 16 + b) :: ·)
    | _, _ => none
  | 37 :: _ => none
  | c :: rest => (pctTokens rest).map (.inl c :: ·)

/-- Collect the leading run of decoded bytes. -/
def splitRun : List (Nat ⊕ Nat) → List Nat × List (Nat ⊕ Nat)
  | [] => ([], [])
  | .inl c :: rest => ([], .inl c :: rest)
  | .inr b :: rest =>
    let (r, t) := splitRun rest
    (b :: r, t)

/-- Reassemble tokens, decoding byte runs as strict UTF-8. -/
def decodeGroupsF : Nat → List (Nat ⊕ Nat) → Option JSStr
  | _, [] => some []
  | 0, _ :: _ => none
  | fuel + 1, .inl c :: rest => (decodeGroupsF fuel rest).map (c :: ·)
  | fuel + 1, .inr b :: rest =>
    let (run, t) := splitRun rest
    match decodeStrictF (b :: run).length (b :: run) with
    | some cps => (decodeGroupsF fuel t).map (cps ++ ·)
    | none => none

/-- JS `decodeURIComponent`; `none` models a thrown `URIError`. -/
def decodeURIComponentM (s : JSStr) : Option JSStr :=
  match pctTokens s with
  | some toks => decodeGroupsF toks.length toks
  | none => none

/-! ### The upload filename regex

`part.match(/filename="(.+?)"/)`: at the leftmost position where the literal
`filename="` matches, the lazy group captures the shortest nonempty run of
non-line-terminator characters followed by a double quote. -/

/-- May a character be matched by `.` in a JS regex (no line terminators). -/
def dotOk (c : Nat) : Bool := c ≠ 10 ∧ c ≠ 13 ∧ c ≠ 0x2028 ∧ c ≠ 0x2029

/-- Lazy `(.+?)"`: shortest nonempty prefix of dot characters followed by a
double quote (code 34); the quote is not part of the capture. -/
def capAux : List Nat → Option (List Nat)
  | [] => none
  | c :: rest =>
    if dotOk c then
      match rest with
      | q :: _ => if q = 34 then some [c] else (capAux rest).map (c :: ·)
      | [] => none
    else none

/-- Attempt the whole regex at the current position. -/
def tryFilenameAt (s : List Nat) : Option (List Nat) :=
  if (uc "filename=\"").isPrefixOf s then capAux (s.drop 10) else none

/-- Leftmost match of `/filename="(.+?)"/`, returning the capture. -/
def jsMatchFilename : List Nat → Option (List Nat)
  | [] => none
  | s@(_ :: rest) =>
    match tryFilenameAt s with
    | some cap => some cap
    | none => jsMatchFilename rest

/-! ### Filesystem model

A tree of named entries.  Paths are addressed by their nonempty `/`-separated
segments; the handler only ever accesses normalized absolute paths, so no
`.`/`..` resolution is needed at this level.  File contents are byte lists;
the model does not track timestamps, and directory `stat.size` is 0. -/

/-- A filesystem node: a file with contents, or a directory with an ordered
list of named children. -/
inductive FsNode where
  | file (content : List Nat)
  | dir (children : List (JSStr × FsNode))

/-- Segments of an absolute path (empty segments dropped). -/
def segsOf (p : JSStr) : List JSStr := (splitOnChar 47 p).filter (· ≠ [])

/-- Look up a child by name. -/
def getChild : List (JSStr × FsNode) → JSStr → Option FsNode
  | [], _ => none
  | (n, c) :: rest, s => if n = s then some c else getChild rest s

/-- Replace the child named `s` (or append it). -/
def setChild : List (JSStr × FsNode) → JSStr → FsNode → List (JSStr × FsNode)
  | [], s, v => [(s, v)]
  | (n, c) :: rest, s, v => if n = s then (s, v) :: rest else (n, c) :: setChild rest s v

/-- Remove the child named `s`. -/
def delChild (ch : List (JSStr × FsNode)) (s : JSStr) : List (JSStr × FsNode) :=
  ch.filter (fun p => p.1 ≠ s)

/-- Resolve a path to a node, if it exists (`fs.existsSync` / `statSync`). -/
def lookup (n : FsNode) : List JSStr → Option FsNode
  | [] => some n
  | s :: rest =>
    match n with
    | .file _ => none
    | .dir ch =>
      match getChild ch s with
      | some c => lookup c rest
      | none => none

/-- `fs.writeFileSync`: overwrite or create the file at the path.  `none`
models a thrown error: a missing or non-directory parent, or a target that is
an existing directory (EISDIR). -/
def fsWriteFile (n : FsNode) : List JSStr → List Nat → Option FsNode
  | [], _ => none
  | [s], content =>
    match n with
    | .file _ => none
    | .dir ch =>
      match getChild ch s with
      | some (.dir _) => none
      | _ => some (.dir (setChild ch s (.file content)))
  | s :: rest1 :: rest, content =>
    match n with
    | .file _ => none
    | .dir ch =>
      match getChild ch s with
      | some c => (fsWriteFile c (rest1 :: rest) content).map (fun c2 => .dir (setChild ch s c2))
      | none => none

/-- `fs.rmSync(p, recursive)` / `fs.unlinkSync(p)`: remove the entry at the
path (with everything under it).  A missing path leaves the tree unchanged;
the handler only calls this on existing paths. -/
def removeEntry (n : FsNode) : List JSStr → FsNode
  | [] => n
  | [s] =>
    match n with
    | .file c => .file c
    | .dir ch => .dir (delChild ch s)
  | s :: rest1 :: rest =>
    match n with
    | .file c => .file c
    | .dir ch =>
      match getChild ch s with
      | some c => .dir (setChild ch s (removeEntry c (rest1 :: rest)))
      | none => .dir ch

/-- `fs.mkdirSync(p, recursive)`: create the directory path, creating
missing parents.  `none` models the thrown error when a file is in the way. -/
def mkdirRec (n : FsNode) : List JSStr → Option FsNode
  | [] =>
    match n with
    | .file _ => none
    | .dir ch => some (.dir ch)
  | s :: rest =>
    match n with
    | .file _ => none
    | .dir ch =>
      match getChild ch s with
      | some c => (mkdirRec c rest).map (fun c2 => .dir (setChild ch s c2))
      | none => (mkdirRec (.dir []) rest).map (fun c2 => .dir (ch ++ [(s, c2)]))

/-- `stats.size` (0 for directories: the model does not track block sizes). -/
def nodeSize : FsNode → Nat
  | .file c => c.length
  | .dir _ => 0

/-- `stats.isDirectory()`. -/
def isDirNode : FsNode → Bool
  | .file _ => false
  | .dir _ => true

/-- Well-formedness of a filesystem tree up to depth `fuel`: every entry name
is a nonempty slash-free segment other than `.` and `..`, as real directory
entries are. -/
def cleanSegB (s : JSStr) : Bool :=
  decide (s ≠ [] ∧ 47 ∉ s ∧ s ≠ uc "." ∧ s ≠ uc "..")

/-- Depth-fuelled well-formedness of the tree. -/
def wfNodeF : Nat → FsNode → Bool
  | _, .file _ => true
  | 0, .dir _ => false
  | fuel + 1, .dir ch => ch.all (fun p => cleanSegB p.1 && wfNodeF fuel p.2)

/-! ### The HTTP handler

`handleWorkspaceHttpRequest` after a successful authorization.  The
`pathname` and the decoded `path` query parameter are taken as the WHATWG
`URL` parser produced them; `boundary` is the parsed boundary parameter of
the content type.  Every filesystem access is recorded in a trace. -/

/-- The parts of the incoming request the handler inspects. -/
structure Request where
  method : JSStr
  pathname : JSStr
  queryPath : JSStr
  body : List Nat
  boundary : Option JSStr
deriving DecidableEq

/-- One filesystem access, with the absolute path it touched. -/
inductive FsOp where
  | opExistsCheck (p : JSStr)
  | opMkdir (p : JSStr)
  | opReaddir (p : JSStr)
  | opStat (p : JSStr)
  | opReadFile (p : JSStr)
  | opWriteFile (p : JSStr)
  | opStream (p : JSStr)
  | opRemove (p : JSStr)
deriving DecidableEq

/-- The path an access touched. -/
def FsOp.path : FsOp → JSStr
  | .opExistsCheck p => p
  | .opMkdir p => p
  | .opReaddir p => p
  | .opStat p => p
  | .opReadFile p => p
  | .opWriteFile p => p
  | .opStream p => p
  | .opRemove p => p

/-- One listing entry (the model tracks no mtime; the field is omitted). -/
structure FileEntry where
  name : JSStr
  size : Nat
  isDirectory : Bool
deriving DecidableEq

/-- The response the handler sends. -/
inductive HttpOut where
  | jsonErr (status : Nat) (msg : JSStr)
  | okTrue
  | listJson (entries : List FileEntry)
  | notFound
  | textOut (content : List Char)
  | download (fileName : JSStr) (bytes : Option (List Nat))
deriving DecidableEq

/-- Outcome of the handler: a handled response, a fall-through (`return
false`), or an exception that escaped the handler uncaught. -/
inductive Outcome where
  | handled (out : HttpOut) (fs : FsNode) (ops : List FsOp)
  | notHandled (fs : FsNode) (ops : List FsOp)
  | threw (fs : FsNode) (ops : List FsOp)

/-- The response sent, if any. -/
def Outcome.resp : Outcome → Option HttpOut
  | .handled out _ _ => some out
  | .notHandled _ _ => none
  | .threw _ _ => none

/-- The filesystem after the request. -/
def Outcome.fsAfter : Outcome → FsNode
  | .handled _ fs _ => fs
  | .notHandled fs _ => fs
  | .threw fs _ => fs

/-- The trace of filesystem accesses made. -/
def Outcome.trace : Outcome → List FsOp
  | .handled _ _ t => t
  | .notHandled _ t => t
  | .threw _ t => t

/-- Source lines 43 to 45: the workspace root is lazily created before any
check.  Returns the filesystem and trace, or `none` when `mkdirSync` throws. -/
def ensureRoot (root : JSStr) (fs0 : FsNode) : Option (FsNode × List FsOp) :=
  if (lookup fs0 (segsOf root)).isSome then some (fs0, [.opExistsCheck root])
  else (mkdirRec fs0 (segsOf root)).map (fun f => (f, [.opExistsCheck root, .opMkdir root]))

/-- Source lines 58 to 76: the Directory Lister.  `readdirSync` then a
`statSync` per child; entries whose name starts with a dot are filtered out
after the stats. -/
def listBranch (workspaceDir : JSStr) (fs1 : FsNode) (tr1 : List FsOp) : Outcome :=
  match lookup fs1 (segsOf workspaceDir) with
  | some (.dir ch) =>
    let entries := ch.map (fun p => FileEntry.mk p.1 (nodeSize p.2) (isDirNode p.2))
    let statOps := ch.map (fun p => FsOp.opStat (pathJoin workspaceDir p.1))
    let visible := entries.filter (fun e => !(jsStartsWith e.name (uc ".")))
    .handled (.listJson visible) fs1 (tr1 ++ .opReaddir workspaceDir :: statOps)
  | _ => .handled (.jsonErr 500 (uc "Failed to list workspace")) fs1 (tr1 ++ [.opReaddir workspaceDir])

/-- Source lines 90 to 100: Download.  404 only when `existsSync` is false;
otherwise attachment headers are sent and the path is streamed — for a
directory the stream itself errors after the headers (`bytes = none`). -/
def downloadBranch (fileName filePath : JSStr) (fs1 : FsNode) (tr1 : List FsOp) : Outcome :=
  match lookup fs1 (segsOf filePath) with
  | none => .handled .notFound fs1 (tr1 ++ [.opExistsCheck filePath])
  | some (.file c) =>
    .handled (.download fileName (some c)) fs1 (tr1 ++ [.opExistsCheck filePath, .opStream filePath])
  | some (.dir _) =>
    .handled (.download fileName none) fs1 (tr1 ++ [.opExistsCheck filePath, .opStream filePath])

/-- Source lines 103 to 119: Delete.  A missing path is success; a directory
is removed recursively, a file unlinked. -/
def deleteBranch (filePath : JSStr) (fs1 : FsNode) (tr1 : List FsOp) : Outcome :=
  match lookup fs1 (segsOf filePath) with
  | none => .handled .okTrue fs1 (tr1 ++ [.opExistsCheck filePath])
  | some _ =>
    .handled .okTrue (removeEntry fs1 (segsOf filePath))
      (tr1 ++ [.opExistsCheck filePath, .opStat filePath, .opRemove filePath])

/-- Source lines 122 to 142: Text Read.  The file name is the raw `subPath`
with the `text/` prefix stripped — not the decoded `fileName`. -/
def textReadBranch (workspaceDir subPath : JSStr) (fs1 : FsNode) (tr1 : List FsOp) : Outcome :=
  let actualFilePath := pathJoin workspaceDir (stripTextPrefix subPath)
  if ¬ jsStartsWith actualFilePath workspaceDir then .handled (.jsonErr 403 (uc "Forbidden")) fs1 tr1
  else
    match lookup fs1 (segsOf actualFilePath) with
    | none => .handled .notFound fs1 (tr1 ++ [.opExistsCheck actualFilePath])
    | some (.file c) =>
      .handled (.textOut (utf8DecodeReplace c)) fs1
        (tr1 ++ [.opExistsCheck actualFilePath, .opReadFile actualFilePath])
    | some (.dir _) =>
      .handled (.jsonErr 500 (uc "Failed to read text file")) fs1
        (tr1 ++ [.opExistsCheck actualFilePath, .opReadFile actualFilePath])

/-- Source lines 145 to 164: Text Write.  The `try` wraps only the
synchronous registration of the `data`/`end` listeners; `writeFileSync` runs
inside the `end` callback, outside the `try`, so a write failure escapes as
an uncaught exception (`.threw`) instead of reaching the `catch` that would
send a 500.  The accumulated body is the UTF-8 decoding of the raw bytes
(chunk boundaries are not modelled). -/
def textWriteBranch (workspaceDir subPath : JSStr) (body : List Nat) (fs1 : FsNode) (tr1 : List FsOp) : Outcome :=
  let actualFilePath := pathJoin workspaceDir (stripTextPrefix subPath)
  if ¬ jsStartsWith actualFilePath workspaceDir then .handled (.jsonErr 403 (uc "Forbidden")) fs1 tr1
  else
    match fsWriteFile fs1 (segsOf actualFilePath) (utf8EncodeL (utf8DecodeReplace body)) with
    | some fs2 => .handled .okTrue fs2 (tr1 ++ [.opWriteFile actualFilePath])
    | none => .threw fs1 (tr1 ++ [.opWriteFile actualFilePath])

/-- Source lines 186 to 203: the loop over the split multipart parts.  A part
without a filename attribute is skipped; a target failing the string prefix
check is silently dropped; a throwing `writeFileSync` escapes uncaught (it
runs in the `end` callback).  After the loop, 200 ok is always sent. -/
def processParts (workspaceDir : JSStr) : List (List Nat) → FsNode → List FsOp → Outcome
  | [], fs, tr => .handled .okTrue fs tr
  | part :: rest, fs, tr =>
    if containsSeq part (uc "filename=\"") then
      let fileName := (jsMatchFilename part).getD (uc "uploaded_file")
      let contentStart := jsIndexOfSeq part (uc "\r\n\r\n") + 4
      let contentEnd := jsLastIndexOfSeq part (uc "\r\n")
      let content := jsSlice part contentStart contentEnd
      let targetPath := pathJoin workspaceDir fileName
      if jsStartsWith targetPath workspaceDir then
        match fsWriteFile fs (segsOf targetPath) (content.map (· % 256)) with
        | some fs2 => processParts workspaceDir rest fs2 (tr ++ [.opWriteFile targetPath])
        | none => .threw fs (tr ++ [.opWriteFile targetPath])
      else processParts workspaceDir rest fs tr
    else processParts workspaceDir rest fs tr

/-- Source lines 168 to 211: Multipart Ingest.  `body.toString("binary")`
decodes latin1, which maps byte `b` to code unit `b`, so the split operates
directly on the byte list; `writeFileSync(p, content, "binary")` encodes the
code units back by masking to the low byte. -/
def uploadBranch (workspaceDir : JSStr) (boundary : Option JSStr) (body : List Nat)
    (fs1 : FsNode) (tr1 : List FsOp) : Outcome :=
  match boundary with
  | none => .handled (.jsonErr 400 (uc "Missing boundary")) fs1 tr1
  | some b => processParts workspaceDir (jsSplit body (uc "--" ++ b)) fs1 tr1

/-- Source lines 79 to 165: the `if (subPath)` block.  `none` means control
fell through to the upload check (no inner branch matched).  A failing
`decodeURIComponent` throws out of the handler. -/
def fileOps (root workspaceDir subPath pathname method : JSStr) (body : List Nat)
    (fs1 : FsNode) (tr1 : List FsOp) : Option Outcome :=
  match decodeURIComponentM subPath with
  | none => some (.threw fs1 tr1)
  | some fileName =>
    let filePath := pathJoin workspaceDir fileName
    if ¬ jsStartsWith filePath root then some (.handled (.jsonErr 403 (uc "Forbidden")) fs1 tr1)
    else if method = uc "GET" ∧ ¬ containsSeq pathname (uc "/text/") then
      some (downloadBranch fileName filePath fs1 tr1)
    else if method = uc "DELETE" then some (deleteBranch filePath fs1 tr1)
    else if method = uc "GET" ∧ containsSeq pathname (uc "/text/") then
      some (textReadBranch workspaceDir subPath fs1 tr1)
    else if method = uc "PUT" ∧ containsSeq pathname (uc "/text/") then
      some (textWriteBranch workspaceDir subPath body fs1 tr1)
    else none

/-- Source lines 47 to 213: the handler after the root has been ensured,
with the filesystem and trace so far. -/
def handleAfterRoot (root : JSStr) (req : Request) (fs1 : FsNode) (tr1 : List FsOp) : Outcome :=
  let subPath := stripLeadingSlashes (req.pathname.drop (uc "/api/workspace").length)
  let workspaceDir := pathJoin root req.queryPath
  if ¬ jsStartsWith workspaceDir root then .handled (.jsonErr 403 (uc "Forbidden")) fs1 tr1
  else if subPath = [] ∧ req.method = uc "GET" then listBranch workspaceDir fs1 tr1
  else
    match (if subPath ≠ [] then fileOps root workspaceDir subPath req.pathname req.method req.body fs1 tr1 else none) with
    | some outcome => outcome
    | none =>
      if req.pathname = uc "/api/workspace/upload" ∧ req.method = uc "POST" then
        uploadBranch workspaceDir req.boundary req.body fs1 tr1
      else .notHandled fs1 tr1

/-- The whole handler (source lines 13 to 214) after a successful
authorization, with `root` the workspace directory resolved by the external
Workspace Locator. -/
def handleWorkspaceHttpRequest (root : JSStr) (req : Request) (fs0 : FsNode) : Outcome :=
  if ¬ jsStartsWith req.pathname (uc "/api/workspace") then .notHandled fs0 []
  else
    match ensureRoot root fs0 with
    | none => .threw fs0 [.opExistsCheck root, .opMkdir root]
    | some (fs1, tr1) => handleAfterRoot root req fs1 tr1

/-! ### Concrete fixtures used by the claim theorems and witnesses -/

/-- The claim notion of path prefix: equality with the root, or the root plus
a path separator (spec section 4.1) — deliberately stronger than the string
prefix check the code performs. -/
def pathPrefixOf (r p : JSStr) : Bool := p = r || (r ++ [47]).isPrefixOf p

/-- A workspace root used by the concrete scenarios. -/
def wsRoot : JSStr := uc "/data/ws"

/-- A filesystem with the root and a sibling directory sharing its name as a
string prefix. -/
def fsEvil : FsNode :=
  .dir [(uc "data", .dir
    [(uc "ws", .dir [(uc "f.txt", .file [104, 105])]),
     (uc "ws-evil", .dir [(uc "secret", .file [7, 7])])])]

/-- Download request whose encoded name traverses to the sibling directory. -/
def c1Req : Request :=
  Request.mk (uc "GET") (uc "/api/workspace/..%2Fws-evil%2Fsecret") [] [] none

/-- A filesystem whose root contains the directory `somedir`. -/
def fsWithDir : FsNode :=
  .dir [(uc "data", .dir [(uc "ws", .dir [(uc "somedir", .dir [(uc "x", .file [1])])])])]

/-- Download request for `somedir`. -/
def c4Req : Request :=
  Request.mk (uc "GET") (uc "/api/workspace/somedir") [] [] none

/-- Text Write request targeting the directory `somedir`. -/
def c5Req : Request :=
  Request.mk (uc "PUT") (uc "/api/workspace/text/somedir") [] (uc "hi") none

/-- A filesystem in which the workspace root does not exist yet. -/
def fsNoRoot : FsNode := .dir [(uc "data", .dir [])]

/-- Listing request whose `path` query parameter escapes the root. -/
def c6Req : Request :=
  Request.mk (uc "GET") (uc "/api/workspace") (uc "../../etc") [] none

/-- A root containing a file whose name has a space, with the given bytes. -/
def fsSpaceC (content : List Nat) : FsNode :=
  .dir [(uc "data", .dir [(uc "ws", .dir [(uc "a b.txt", .file content)])])]

/-- Download request for the URL-encoded name. -/
def dlEncReq : Request :=
  Request.mk (uc "GET") (uc "/api/workspace/a%20b.txt") [] [] none

/-- Delete request for the URL-encoded name. -/
def delEncReq : Request :=
  Request.mk (uc "DELETE") (uc "/api/workspace/a%20b.txt") [] [] none

/-- Text Read request for the URL-encoded name. -/
def textEncReq : Request :=
  Request.mk (uc "GET") (uc "/api/workspace/text/a%20b.txt") [] [] none

/-- Text Write request for the URL-encoded name. -/
def textWriteEncReq : Request :=
  Request.mk (uc "PUT") (uc "/api/workspace/text/a%20b.txt") [] (uc "hi") none

/-- A root containing the file `f.txt` with the given bytes. -/
def fsTextC (content : List Nat) : FsNode :=
  .dir [(uc "data", .dir [(uc "ws", .dir [(uc "f.txt", .file content)])])]

/-- Text Write request for `f.txt` with the given raw body bytes. -/
def c3WriteReq (body : List Nat) : Request :=
  Request.mk (uc "PUT") (uc "/api/workspace/text/f.txt") [] body none

/-- Text Read request for `f.txt`. -/
def c3ReadReq : Request :=
  Request.mk (uc "GET") (uc "/api/workspace/text/f.txt") [] [] none

/-- Delete request for a name that does not exist in `fsEvil`. -/
def c7Req : Request :=
  Request.mk (uc "DELETE") (uc "/api/workspace/nope.txt") [] [] none

/-- Delete request for the directory `somedir` of `fsWithDir`. -/
def c8Req : Request :=
  Request.mk (uc "DELETE") (uc "/api/workspace/somedir") [] [] none

/-- A multipart body whose single file part declares the traversing name
`../../evil.txt`, so its joined target fails the string prefix check. -/
def c10Body : List Nat :=
  uc "--X\r\nContent-Disposition: form-data; name=\"file\"; filename=\"../../evil.txt\"\r\n\r\nA\r\n--X--\r\n"

/-- A workspace root in normalized absolute form: nonempty clean segments,
no trailing separator.  `resolveAgentWorkspaceDir` produces such paths. -/
def niceRootB (root : JSStr) : Bool :=
  decide (segsOf root ≠ [] ∧ (∀ s ∈ segsOf root, cleanSegB s = true) ∧
    root = 47 :: joinSlash (segsOf root))

/-- The 403 response body the handler sends on a containment rejection. -/
def forbiddenOut : HttpOut := .jsonErr 403 (uc "Forbidden")

/-- The multipart header line of the C2 fixture part. -/
def c2Header : List Nat :=
  uc "Content-Disposition: form-data; name=\"file\"; filename=\"report.txt\""

/-- The single part produced by splitting the C2 fixture body on the
dash-boundary: leading CRLF, header, blank line, content, trailing CRLF. -/
def c2PartA (C : List Nat) : List Nat :=
  uc "\r\n" ++ c2Header ++ uc "\r\n\r\n" ++ C ++ uc "\r\n"

/-- A well-formed single-part multipart body for boundary `X` and raw
content bytes `C`. -/
def c2Body (X C : List Nat) : List Nat :=
  uc "--" ++ X ++ uc "\r\n" ++ c2Header ++ uc "\r\n\r\n" ++ C ++ uc "\r\n" ++
    uc "--" ++ X ++ uc "--\r\n"

/-- Workspace tree before the C2 upload: an empty root `/data/ws`. -/
def c2FsUp : FsNode := .dir [(uc "data", .dir [(uc "ws", .dir [])])]

/-- Workspace tree after the C2 upload: `/data/ws/report.txt` holds `C`. -/
def c2FsAfter (C : List Nat) : FsNode :=
  .dir [(uc "data", .dir [(uc "ws", .dir [(uc "report.txt", .file C)])])]

/-- The C2 part up to (excluding) its final CRLF. -/
def c2A0 (C : List Nat) : List Nat := uc "\r\n" ++ (c2Header ++ (uc "\r\n\r\n" ++ C))

/-! ### Claim theorems: concrete scenarios -/

/-- C1, counterexample.  The claim asserts that every resolved path either
begins with the root as a path prefix (root plus separator, or equality) or
the request is rejected with Forbidden, and that no target outside the root
is accessed.  With root `/data/ws`, the request for the encoded name
`../ws-evil/secret` resolves to `/data/ws-evil/secret`, which passes the
string prefix check of the code, is streamed back to the caller, and is not
within the root in the claim sense. -/
theorem c1_counterexample :
    (handleWorkspaceHttpRequest wsRoot c1Req fsEvil).resp =
      some (.download (uc "../ws-evil/secret") (some [7, 7])) ∧
    FsOp.opStream (uc "/data/ws-evil/secret") ∈ (handleWorkspaceHttpRequest wsRoot c1Req fsEvil).trace ∧
    pathPrefixOf wsRoot (pathJoin (pathJoin wsRoot []) (uc "../ws-evil/secret")) = false := by
  refine ⟨rfl, ?_, rfl⟩
  decide

/-- C4.  Download claims NotFound exactly when the path is missing or is a
directory.  For the existing directory `somedir` the code instead sends the
200 attachment headers and pipes a read stream that fails (EISDIR): the
response is a download outcome with a dead stream, not a 404. -/
theorem c4_download_directory_not_notFound :
    lookup fsWithDir (segsOf (uc "/data/ws/somedir")) =
      some (.dir [(uc "x", .file [1])]) ∧
    handleWorkspaceHttpRequest wsRoot c4Req fsWithDir =
      .handled (.download (uc "somedir") none) fsWithDir
        [.opExistsCheck wsRoot, .opExistsCheck (uc "/data/ws/somedir"),
         .opStream (uc "/data/ws/somedir")] ∧
    (handleWorkspaceHttpRequest wsRoot c4Req fsWithDir).resp ≠ some .notFound := by
  refine ⟨rfl, rfl, ?_⟩
  decide

/-- C5.  Text Write claims a failing filesystem write surfaces as an IOError
mapped to HTTP 500.  Writing to the existing directory `somedir` makes
`writeFileSync` throw inside the request `end` callback, outside the
`try/catch`, so no response is produced at all and the exception escapes the
handler uncaught. -/
theorem c5_text_write_failure_uncaught :
    lookup fsWithDir (segsOf (uc "/data/ws/somedir")) =
      some (.dir [(uc "x", .file [1])]) ∧
    handleWorkspaceHttpRequest wsRoot c5Req fsWithDir =
      .threw fsWithDir [.opExistsCheck wsRoot, .opWriteFile (uc "/data/ws/somedir")] ∧
    (handleWorkspaceHttpRequest wsRoot c5Req fsWithDir).resp = none := by
  exact ⟨rfl, rfl, rfl⟩

/-- C6, counterexample.  The claim asserts that a request failing the
containment check triggers no filesystem access at all.  When the workspace
root does not exist yet, the handler creates it (lines 43 to 45) before the
check: the rejected request still performs an existence probe and a mkdir,
and afterwards the root directory exists. -/
theorem c6_counterexample :
    (handleWorkspaceHttpRequest wsRoot c6Req fsNoRoot).resp =
      some (.jsonErr 403 (uc "Forbidden")) ∧
    (handleWorkspaceHttpRequest wsRoot c6Req fsNoRoot).trace =
      [.opExistsCheck wsRoot, .opMkdir wsRoot] ∧
    lookup fsNoRoot (segsOf wsRoot) = none ∧
    lookup (handleWorkspaceHttpRequest wsRoot c6Req fsNoRoot).fsAfter (segsOf wsRoot) =
      some (.dir []) := by
  exact ⟨rfl, rfl, rfl, rfl⟩

/-- C9, counterexample.  The claim asserts every name-accepting branch
percent-decodes the segment before resolution.  Text Read joins the raw
segment: requesting `text/a%20b.txt` while the file `a b.txt` exists yields
404 instead of the file, because the literal name `a%20b.txt` was looked up. -/
theorem c9_counterexample :
    (handleWorkspaceHttpRequest wsRoot textEncReq (fsSpaceC (uc "X"))).resp = some .notFound ∧
    lookup (fsSpaceC (uc "X")) (segsOf (pathJoin wsRoot (uc "a b.txt"))) =
      some (.file (uc "X")) ∧
    FsOp.opExistsCheck (uc "/data/ws/a%20b.txt") ∈
      (handleWorkspaceHttpRequest wsRoot textEncReq (fsSpaceC (uc "X"))).trace := by
  refine ⟨rfl, rfl, ?_⟩
  decide

/-- C9, amended.  Download and Delete do percent-decode the name segment
before joining and checking; Text Read and Text Write join the raw segment
(after stripping `text/`), so the encoded name addresses the literally named
file there.  Universal over the stored file content. -/
theorem c9_amended_decode_split (content : List Nat) :
    (handleWorkspaceHttpRequest wsRoot dlEncReq (fsSpaceC content)).resp =
      some (.download (uc "a b.txt") (some content)) ∧
    lookup (handleWorkspaceHttpRequest wsRoot delEncReq (fsSpaceC content)).fsAfter
      (segsOf (uc "/data/ws/a b.txt")) = none ∧
    (handleWorkspaceHttpRequest wsRoot textEncReq (fsSpaceC content)).resp = some .notFound ∧
    lookup (handleWorkspaceHttpRequest wsRoot textWriteEncReq (fsSpaceC content)).fsAfter
      (segsOf (uc "/data/ws/a%20b.txt")) = some (.file (uc "hi")) := by
  exact ⟨rfl, rfl, rfl, rfl⟩

/-- C7.  Idempotent delete: for every resolved path that does not exist, the
Delete operation returns 200 ok and leaves the filesystem unchanged, and a
second identical request returns the same success on the unchanged state. -/
theorem c7_idempotent_delete (root fn : JSStr) (req : Request) (fs0 : FsNode)
    (hapi : jsStartsWith req.pathname (uc "/api/workspace") = true)
    (hroot : (lookup fs0 (segsOf root)).isSome = true)
    (hmethod : req.method = uc "DELETE")
    (hsub : stripLeadingSlashes (req.pathname.drop 14) ≠ [])
    (hdec : decodeURIComponentM (stripLeadingSlashes (req.pathname.drop 14)) = some fn)
    (hwd : jsStartsWith (pathJoin root req.queryPath) root = true)
    (hfp : jsStartsWith (pathJoin (pathJoin root req.queryPath) fn) root = true)
    (hmiss : lookup fs0 (segsOf (pathJoin (pathJoin root req.queryPath) fn)) = none) :
    handleWorkspaceHttpRequest root req fs0 =
      .handled .okTrue fs0
        [.opExistsCheck root, .opExistsCheck (pathJoin (pathJoin root req.queryPath) fn)] ∧
    handleWorkspaceHttpRequest root req
        ((handleWorkspaceHttpRequest root req fs0).fsAfter) =
      .handled .okTrue fs0
        [.opExistsCheck root, .opExistsCheck (pathJoin (pathJoin root req.queryPath) fn)] := by
  have hne : ¬ (stripLeadingSlashes (req.pathname.drop 14) = [] ∧ req.method = uc "GET") := by
    intro h; exact hsub h.1
  have hlen : (uc "/api/workspace").length = 14 := rfl
  have h1 : handleWorkspaceHttpRequest root req fs0 =
      .handled .okTrue fs0
        [.opExistsCheck root, .opExistsCheck (pathJoin (pathJoin root req.queryPath) fn)] := by
    unfold handleWorkspaceHttpRequest handleAfterRoot ensureRoot fileOps deleteBranch
    simp only [hlen, hapi, hroot, hdec, hmethod, hwd, hfp, hmiss, hsub, hne,
      not_true_eq_false, Bool.not_eq_true, if_true, if_false, ite_true, ite_false,
      Option.isSome_some, show ((uc "DELETE" : JSStr) = uc "GET") = False by simp; decide,
      false_and, and_false, if_false]
    simp [hsub]
  refine ⟨h1, ?_⟩
  rw [h1]
  exact h1

/-- C7, witness: deleting the nonexistent `nope.txt` twice, concretely. -/
theorem c7_witness :
    handleWorkspaceHttpRequest wsRoot c7Req fsEvil =
      .handled .okTrue fsEvil
        [.opExistsCheck wsRoot, .opExistsCheck (pathJoin (pathJoin wsRoot []) (uc "nope.txt"))] ∧
    handleWorkspaceHttpRequest wsRoot c7Req
        ((handleWorkspaceHttpRequest wsRoot c7Req fsEvil).fsAfter) =
      .handled .okTrue fsEvil
        [.opExistsCheck wsRoot, .opExistsCheck (pathJoin (pathJoin wsRoot []) (uc "nope.txt"))] :=
  c7_idempotent_delete wsRoot (uc "nope.txt") c7Req fsEvil (by decide) (by decide) rfl
    (by decide) (by decide) (by decide) (by decide) (by rfl)

/-- Removing any path from a file node leaves it unchanged. -/
theorem removeEntry_file (c : List Nat) (l : List JSStr) : removeEntry (.file c) l = .file c := by
  match l with
  | [] => rfl
  | [s] => rfl
  | s :: t :: r => rfl

/-- Looking below a file node finds nothing. -/
theorem lookup_file_cons (c : List Nat) (s : JSStr) (l : List JSStr) :
    lookup (.file c) (s :: l) = none := rfl

/-- A deleted child is no longer found. -/
theorem getChild_delChild (ch : List (JSStr × FsNode)) (s : JSStr) :
    getChild (delChild ch s) s = none := by
  induction ch with
  | nil => rfl
  | cons p rest ih =>
    by_cases h : p.1 = s
    · simp [delChild, List.filter, h] at ih ⊢
      simpa [delChild] using ih
    · simp [delChild, List.filter, h] at ih ⊢
      simp [getChild, h]
      simpa [delChild] using ih

/-- A replaced child is found with its new value. -/
theorem getChild_setChild (ch : List (JSStr × FsNode)) (s : JSStr) (v : FsNode) :
    getChild (setChild ch s v) s = some v := by
  induction ch with
  | nil => simp [setChild, getChild]
  | cons p rest ih =>
    by_cases h : p.1 = s
    · simp [setChild, h, getChild]
    · simp [setChild, h, getChild, ih]

/-- Extending a missing path still misses. -/
theorem lookup_none_append (fs : FsNode) (p q : List JSStr) (h : lookup fs p = none) :
    lookup fs (p ++ q) = none := by
  induction p generalizing fs with
  | nil => simp [lookup] at h
  | cons s p ih =>
    cases fs with
    | file c => simp [lookup]
    | dir ch =>
      simp only [List.cons_append, lookup] at h ⊢
      cases hg : getChild ch s with
      | none => rfl
      | some c => rw [hg] at h; exact ih c h

/-- After a recursive removal the removed path no longer resolves. -/
theorem lookup_removeEntry_self (fs : FsNode) (ps : List JSStr) (n : JSStr) :
    lookup (removeEntry fs (ps ++ [n])) (ps ++ [n]) = none := by
  induction ps generalizing fs with
  | nil =>
    cases fs with
    | file c => simp [removeEntry, lookup]
    | dir ch => simp [removeEntry, lookup, getChild_delChild]
  | cons s ps ih =>
    cases fs with
    | file c => simp [removeEntry_file, lookup_file_cons]
    | dir ch =>
      cases ps with
      | nil =>
        simp only [List.cons_append, List.nil_append, removeEntry, lookup]
        cases hg : getChild ch s with
        | none => simp [lookup, hg]
        | some c =>
          simp [lookup, getChild_setChild]
          simpa using ih c
      | cons s2 ps2 =>
        simp only [List.cons_append, removeEntry, lookup]
        cases hg : getChild ch s with
        | none => simp [lookup, hg]
        | some c =>
          simp [lookup, getChild_setChild]
          simpa using ih c

/-- After removing `ps ++ [n]`, the parent directory `ps` holds the same
children minus `n`. -/
theorem removeEntry_parent (fs : FsNode) (ps : List JSStr) (n : JSStr) (pch : List (JSStr × FsNode))
    (h : lookup fs ps = some (.dir pch)) :
    lookup (removeEntry fs (ps ++ [n])) ps = some (.dir (delChild pch n)) := by
  induction ps generalizing fs with
  | nil =>
    simp [lookup] at h
    subst h
    simp [removeEntry, lookup]
  | cons s ps ih =>
    cases fs with
    | file c => simp [lookup_file_cons] at h
    | dir ch =>
      simp only [lookup] at h
      cases hg : getChild ch s with
      | none => rw [hg] at h; simp at h
      | some c =>
        rw [hg] at h
        cases ps with
        | nil =>
          simp only [List.cons_append, List.nil_append, removeEntry, lookup, hg, getChild_setChild]
          simpa [lookup] using ih c h
        | cons s2 ps2 =>
          simp only [List.cons_append, removeEntry, lookup, hg, getChild_setChild]
          simpa using ih c h

/-- C8.  Recursive delete: deleting an existing directory removes it and
everything below it (no extension of its path resolves afterwards), and a
subsequent Directory Lister call on the parent no longer shows the name. -/
theorem c8_recursive_delete (root fn pp n : JSStr) (ps : List JSStr) (req : Request) (fs0 : FsNode)
    (ch pch : List (JSStr × FsNode))
    (hapi : jsStartsWith req.pathname (uc "/api/workspace") = true)
    (hroot : (lookup fs0 (segsOf root)).isSome = true)
    (hmethod : req.method = uc "DELETE")
    (hsub : stripLeadingSlashes (req.pathname.drop 14) ≠ [])
    (hdec : decodeURIComponentM (stripLeadingSlashes (req.pathname.drop 14)) = some fn)
    (hwd : jsStartsWith (pathJoin root req.queryPath) root = true)
    (hfp : jsStartsWith (pathJoin (pathJoin root req.queryPath) fn) root = true)
    (hdir : lookup fs0 (segsOf (pathJoin (pathJoin root req.queryPath) fn)) = some (.dir ch))
    (hsegs : segsOf (pathJoin (pathJoin root req.queryPath) fn) = ps ++ [n])
    (hpp : segsOf pp = ps)
    (hparent : lookup fs0 ps = some (.dir pch)) :
    handleWorkspaceHttpRequest root req fs0 =
      .handled .okTrue (removeEntry fs0 (segsOf (pathJoin (pathJoin root req.queryPath) fn)))
        [.opExistsCheck root, .opExistsCheck (pathJoin (pathJoin root req.queryPath) fn),
         .opStat (pathJoin (pathJoin root req.queryPath) fn),
         .opRemove (pathJoin (pathJoin root req.queryPath) fn)] ∧
    (∀ q, lookup (handleWorkspaceHttpRequest root req fs0).fsAfter
        (segsOf (pathJoin (pathJoin root req.queryPath) fn) ++ q) = none) ∧
    (∃ entries tr, listBranch pp (handleWorkspaceHttpRequest root req fs0).fsAfter [] =
        .handled (.listJson entries) (handleWorkspaceHttpRequest root req fs0).fsAfter tr ∧
      ∀ e ∈ entries, e.name ≠ n) := by
  have hne : ¬ (stripLeadingSlashes (req.pathname.drop 14) = [] ∧ req.method = uc "GET") := by
    intro h; exact hsub h.1
  have hlen : (uc "/api/workspace").length = 14 := rfl
  have h1 : handleWorkspaceHttpRequest root req fs0 =
      .handled .okTrue (removeEntry fs0 (segsOf (pathJoin (pathJoin root req.queryPath) fn)))
        [.opExistsCheck root, .opExistsCheck (pathJoin (pathJoin root req.queryPath) fn),
         .opStat (pathJoin (pathJoin root req.queryPath) fn),
         .opRemove (pathJoin (pathJoin root req.queryPath) fn)] := by
    unfold handleWorkspaceHttpRequest handleAfterRoot ensureRoot fileOps deleteBranch
    simp only [hlen, hapi, hroot, hdec, hmethod, hwd, hfp, hdir, hsub, hne,
      not_true_eq_false, Bool.not_eq_true, if_true, if_false, ite_true, ite_false,
      Option.isSome_some, show ((uc "DELETE" : JSStr) = uc "GET") = False by simp; decide,
      false_and, and_false, if_false]
    simp [hsub]
  refine ⟨h1, ?_, ?_⟩
  · intro q
    rw [h1]
    show lookup (removeEntry fs0 (segsOf (pathJoin (pathJoin root req.queryPath) fn)))
      (segsOf (pathJoin (pathJoin root req.queryPath) fn) ++ q) = none
    rw [hsegs]
    exact lookup_none_append _ _ _ (lookup_removeEntry_self fs0 ps n)
  · rw [h1]
    show ∃ entries tr,
      listBranch pp (removeEntry fs0 (segsOf (pathJoin (pathJoin root req.queryPath) fn))) [] = _ ∧ _
    rw [hsegs]
    have hpar := removeEntry_parent fs0 ps n pch hparent
    refine ⟨((delChild pch n).map (fun p => FileEntry.mk p.1 (nodeSize p.2) (isDirNode p.2))).filter
        (fun e => !(jsStartsWith e.name (uc "."))),
      .opReaddir pp :: (delChild pch n).map (fun p => FsOp.opStat (pathJoin pp p.1)), ?_, ?_⟩
    · unfold listBranch
      rw [hpp, hpar]
      rfl
    · intro e he
      simp only [List.mem_filter, List.mem_map] at he
      obtain ⟨⟨p, hp, rfl⟩, -⟩ := he
      simp only [delChild, List.mem_filter] at hp
      intro hcontra
      simp only [FileEntry.mk] at hcontra
      exact absurd (by simpa using hp.2) (by simp [hcontra])

/-- C8, witness: deleting `/data/ws/somedir` concretely removes its nested
file as well. -/
theorem c8_witness :
    handleWorkspaceHttpRequest wsRoot c8Req fsWithDir =
      .handled .okTrue
        (removeEntry fsWithDir (segsOf (pathJoin (pathJoin wsRoot []) (uc "somedir"))))
        [.opExistsCheck wsRoot, .opExistsCheck (pathJoin (pathJoin wsRoot []) (uc "somedir")),
         .opStat (pathJoin (pathJoin wsRoot []) (uc "somedir")),
         .opRemove (pathJoin (pathJoin wsRoot []) (uc "somedir"))] ∧
    lookup (handleWorkspaceHttpRequest wsRoot c8Req fsWithDir).fsAfter
      (segsOf (pathJoin (pathJoin wsRoot []) (uc "somedir")) ++ [uc "x"]) = none :=
  ⟨(c8_recursive_delete wsRoot (uc "somedir") wsRoot (uc "somedir")
      [uc "data", uc "ws"] c8Req fsWithDir [(uc "x", .file [1])]
      [(uc "somedir", .dir [(uc "x", .file [1])])]
      (by decide) (by decide) rfl (by decide) (by decide) (by decide) (by decide)
      (by rfl) (by decide) (by decide) (by rfl)).1,
   (c8_recursive_delete wsRoot (uc "somedir") wsRoot (uc "somedir")
      [uc "data", uc "ws"] c8Req fsWithDir [(uc "x", .file [1])]
      [(uc "somedir", .dir [(uc "x", .file [1])])]
      (by decide) (by decide) rfl (by decide) (by decide) (by decide) (by decide)
      (by rfl) (by decide) (by decide) (by rfl)).2.1 [uc "x"]⟩

/-- A character kept by a `Char` is a unicode scalar value. -/
theorem char_valid_nat (c : Char) :
    c.toNat < 0xD800 ∨ (0xDFFF < c.toNat ∧ c.toNat < 0x110000) := by
  have h := c.valid
  rcases h with h | h
  · exact Or.inl h
  · exact Or.inr h

/-- Decoding the UTF-8 encoding of a valid character consumes exactly its
bytes and returns the character. -/
theorem decodeOne_encodeCh (c : Char) (rest : List Nat) :
    decodeOne (utf8EncodeCh c.toNat ++ rest) = some (c.toNat, rest) := by
  have hv := char_valid_nat c
  set n := c.toNat with hn
  unfold utf8EncodeCh
  split_ifs with h1 h2 h3
  · simp only [List.cons_append, List.nil_append, decodeOne]
    rw [if_pos h1]
  · simp only [List.cons_append, List.nil_append, decodeOne]
    rw [if_neg (by omega), if_neg (by omega), if_pos (by omega),
      if_pos (by simp only [contB, decide_eq_true_eq]; omega)]
    simp only [Option.some.injEq, Prod.mk.injEq]
    exact ⟨by omega, trivial⟩
  · simp only [List.cons_append, List.nil_append, decodeOne]
    rw [if_neg (by omega), if_neg (by omega), if_neg (by omega), if_pos (by omega),
      if_pos (by simp only [contB, decide_eq_true_eq]; omega)]
    simp only [Option.some.injEq, Prod.mk.injEq]
    exact ⟨by omega, trivial⟩
  · simp only [List.cons_append, List.nil_append, decodeOne]
    rw [if_neg (by omega), if_neg (by omega), if_neg (by omega), if_neg (by omega),
      if_pos (by omega),
      if_pos (by simp only [contB, decide_eq_true_eq]; omega)]
    simp only [Option.some.injEq, Prod.mk.injEq]
    exact ⟨by omega, trivial⟩

/-- Character encodings are nonempty. -/
theorem encodeCh_ne_nil (c : Char) : utf8EncodeCh c.toNat ≠ [] := by
  unfold utf8EncodeCh
  split_ifs <;> simp

/-- Lossy decoding inverts encoding on every valid string (no replacement
character is ever produced). -/
theorem decodeRepl_encodeL (cs : List Char) : ∀ fuel, (utf8EncodeL cs).length ≤ fuel →
    decodeRepl fuel (utf8EncodeL cs) = cs := by
  induction cs with
  | nil => intro fuel h; cases fuel <;> rfl
  | cons c rest ih =>
    intro fuel h
    have hlen : (utf8EncodeL (c :: rest)).length =
        (utf8EncodeCh c.toNat).length + (utf8EncodeL rest).length := by
      simp [utf8EncodeL]
    have hpos : 0 < (utf8EncodeCh c.toNat).length :=
      List.length_pos.mpr (encodeCh_ne_nil c)
    cases fuel with
    | zero => omega
    | succ f =>
      have hne : utf8EncodeL (c :: rest) ≠ [] := by
        simp only [utf8EncodeL]
        intro hcon
        exact encodeCh_ne_nil c (List.append_eq_nil.mp hcon).1
      obtain ⟨x, xs, hx⟩ : ∃ x xs, utf8EncodeL (c :: rest) = x :: xs := by
        cases hcon : utf8EncodeL (c :: rest) with
        | nil => exact absurd hcon hne
        | cons x xs => exact ⟨x, xs, rfl⟩
      rw [hx]
      have hdec : decodeOne (x :: xs) = some (c.toNat, utf8EncodeL rest) := by
        rw [← hx]
        show decodeOne (utf8EncodeL (c :: rest)) = _
        simp only [utf8EncodeL]
        exact decodeOne_encodeCh c (utf8EncodeL rest)
      simp only [decodeRepl, hdec, Char.ofNat_toNat]
      congr 1
      apply ih
      have : (x :: xs).length = (utf8EncodeL (c :: rest)).length := by rw [hx]
      simp only [List.length_cons] at this
      omega

set_option maxHeartbeats 2000000 in
/-- C3.  Text write/read round trip: writing any UTF-8 string `C` (sent as
its UTF-8 bytes) to `f.txt` stores exactly those bytes on disk — a full
overwrite, independent of the previous content `O` — and a subsequent Text
Read returns exactly `C`. -/
theorem c3_text_write_read_roundtrip (C : List Char) (O : List Nat) :
    handleWorkspaceHttpRequest wsRoot (c3WriteReq (utf8EncodeL C)) (fsTextC O) =
      .handled .okTrue (fsTextC (utf8EncodeL C))
        [.opExistsCheck wsRoot, .opWriteFile (uc "/data/ws/f.txt")] ∧
    handleWorkspaceHttpRequest wsRoot c3ReadReq (fsTextC (utf8EncodeL C)) =
      .handled (.textOut C) (fsTextC (utf8EncodeL C))
        [.opExistsCheck wsRoot, .opExistsCheck (uc "/data/ws/f.txt"),
         .opReadFile (uc "/data/ws/f.txt")] := by
  have hrt : utf8DecodeReplace (utf8EncodeL C) = C := decodeRepl_encodeL C _ le_rfl
  constructor
  · have h0 : handleWorkspaceHttpRequest wsRoot (c3WriteReq (utf8EncodeL C)) (fsTextC O) =
        .handled .okTrue (fsTextC (utf8EncodeL (utf8DecodeReplace (utf8EncodeL C))))
          [.opExistsCheck wsRoot, .opWriteFile (uc "/data/ws/f.txt")] := rfl
    rw [h0, hrt]
  · have h0 : handleWorkspaceHttpRequest wsRoot c3ReadReq (fsTextC (utf8EncodeL C)) =
        .handled (.textOut (utf8DecodeReplace (utf8EncodeL C))) (fsTextC (utf8EncodeL C))
          [.opExistsCheck wsRoot, .opExistsCheck (uc "/data/ws/f.txt"),
           .opReadFile (uc "/data/ws/f.txt")] := rfl
    rw [h0, hrt]

/-- When every filename part of an upload resolves outside the target
directory, nothing is written, nothing is reported, and processing succeeds. -/
theorem processParts_dropped (wd : JSStr) (parts : List (List Nat)) :
    ∀ (fs : FsNode) (tr : List FsOp),
    (∀ part ∈ parts, containsSeq part (uc "filename=\"") = true →
      jsStartsWith (pathJoin wd ((jsMatchFilename part).getD (uc "uploaded_file"))) wd = false) →
    processParts wd parts fs tr = .handled .okTrue fs tr := by
  induction parts with
  | nil => intro fs tr _; rfl
  | cons part rest ih =>
    intro fs tr h
    have hpart := h part (List.mem_cons_self part rest)
    unfold processParts
    cases hc : containsSeq part (uc "filename=\"") with
    | false =>
      simp only [hc]
      exact ih fs tr (fun p hp => h p (List.mem_cons_of_mem part hp))
    | true =>
      simp only [hc, hpart hc, Bool.false_eq_true, if_false, if_true]
      exact ih fs tr (fun p hp => h p (List.mem_cons_of_mem part hp))

/-- The upload loop either completes with 200 ok or dies on an uncaught
write exception: no other response (no Forbidden, no error status) exists. -/
theorem processParts_ok_or_threw (wd : JSStr) (parts : List (List Nat)) :
    ∀ (fs : FsNode) (tr : List FsOp),
    (processParts wd parts fs tr).resp = some .okTrue ∨
    (processParts wd parts fs tr).resp = none := by
  induction parts with
  | nil => intro fs tr; exact Or.inl rfl
  | cons part rest ih =>
    intro fs tr
    unfold processParts
    cases hc : containsSeq part (uc "filename=\"") with
    | false => exact ih fs tr
    | true =>
      simp only [hc]
      by_cases hck : jsStartsWith (pathJoin wd ((jsMatchFilename part).getD (uc "uploaded_file"))) wd = true
      · simp only [hck, if_true]
        cases hw : fsWriteFile fs
            (segsOf (pathJoin wd ((jsMatchFilename part).getD (uc "uploaded_file"))))
            ((jsSlice part (jsIndexOfSeq part (uc "\r\n\r\n") + 4)
              (jsLastIndexOfSeq part (uc "\r\n"))).map (· % 256)) with
        | some fs2 => exact ih fs2 _
        | none => exact Or.inr rfl
      · simp only [Bool.not_eq_true] at hck
        simp only [hck, Bool.false_eq_true, if_false]
        exact ih fs tr

/-- C10.  Once a boundary is declared, the upload responds 200 ok no matter
what was persisted: if every filename part resolves outside the target
directory, all parts are silently dropped — no write, no error, no
Forbidden, filesystem and trace unchanged — and in general the only outcomes
of the ingest are 200 ok or an uncaught write exception, so a caller cannot
tell a persisted upload from a fully discarded one. -/
theorem c10_upload_reports_success (wd b : JSStr) (body body2 : List Nat) (fs fs2 : FsNode)
    (hdrop : ∀ part ∈ jsSplit body (uc "--" ++ b),
      containsSeq part (uc "filename=\"") = true →
      jsStartsWith (pathJoin wd ((jsMatchFilename part).getD (uc "uploaded_file"))) wd = false) :
    uploadBranch wd (some b) body fs [] = .handled .okTrue fs [] ∧
    ((uploadBranch wd (some b) body2 fs2 []).resp = some .okTrue ∨
     (uploadBranch wd (some b) body2 fs2 []).resp = none) := by
  constructor
  · exact processParts_dropped wd _ fs [] hdrop
  · exact processParts_ok_or_threw wd _ fs2 []

/-- C10, witness: an upload whose only part names `../../evil.txt` is fully
discarded yet reports success. -/
theorem c10_witness :
    uploadBranch wsRoot (some (uc "X")) c10Body fsEvil [] = .handled .okTrue fsEvil [] :=
  (c10_upload_reports_success wsRoot (uc "X") c10Body c10Body fsEvil fsEvil (by decide)).1

/-- The Directory Lister never answers Forbidden. -/
theorem listBranch_resp_ne (wd : JSStr) (fs : FsNode) (tr : List FsOp) :
    (listBranch wd fs tr).resp ≠ some forbiddenOut := by
  unfold listBranch
  cases h : lookup fs (segsOf wd) with
  | none => simp [Outcome.resp, forbiddenOut]
  | some n =>
    cases n with
    | file c => simp [Outcome.resp, forbiddenOut]
    | dir ch => simp [Outcome.resp, forbiddenOut]

/-- Download never answers Forbidden. -/
theorem downloadBranch_resp_ne (fn fp : JSStr) (fs : FsNode) (tr : List FsOp) :
    (downloadBranch fn fp fs tr).resp ≠ some forbiddenOut := by
  unfold downloadBranch
  cases h : lookup fs (segsOf fp) with
  | none => simp [Outcome.resp, forbiddenOut]
  | some n => cases n <;> simp [Outcome.resp, forbiddenOut]

/-- Delete never answers Forbidden. -/
theorem deleteBranch_resp_ne (fp : JSStr) (fs : FsNode) (tr : List FsOp) :
    (deleteBranch fp fs tr).resp ≠ some forbiddenOut := by
  unfold deleteBranch
  cases h : lookup fs (segsOf fp) with
  | none => simp [Outcome.resp, forbiddenOut]
  | some n => simp [Outcome.resp, forbiddenOut]

/-- Multipart Ingest never answers Forbidden. -/
theorem uploadBranch_resp_ne (wd : JSStr) (bnd : Option JSStr) (body : List Nat)
    (fs : FsNode) (tr : List FsOp) :
    (uploadBranch wd bnd body fs tr).resp ≠ some forbiddenOut := by
  unfold uploadBranch
  cases bnd with
  | none => simp [Outcome.resp, forbiddenOut]
  | some b =>
    intro hcon
    rcases processParts_ok_or_threw wd (jsSplit body (uc "--" ++ b)) fs tr with h | h
    · rw [hcon] at h
      exact absurd h (by simp [forbiddenOut])
    · rw [hcon] at h
      simp at h

/-- If Text Read answers Forbidden, it did so at its prefix check, before
any filesystem access: state and trace are untouched. -/
theorem textReadBranch_forbidden (wd sub : JSStr) (fs : FsNode) (tr : List FsOp)
    (h : (textReadBranch wd sub fs tr).resp = some forbiddenOut) :
    textReadBranch wd sub fs tr = .handled forbiddenOut fs tr := by
  unfold textReadBranch at h ⊢
  by_cases hck : jsStartsWith (pathJoin wd (stripTextPrefix sub)) wd = true
  · simp only [hck, not_true_eq_false, if_false, ite_false, Bool.not_eq_true] at h ⊢
    cases hl : lookup fs (segsOf (pathJoin wd (stripTextPrefix sub))) with
    | none => rw [hl] at h; simp [Outcome.resp, forbiddenOut] at h
    | some n =>
      rw [hl] at h
      cases n <;> simp [Outcome.resp, forbiddenOut] at h
  · simp only [Bool.not_eq_true] at hck
    simp only [hck, Bool.false_eq_true, not_false_eq_true, if_true, ite_true]
    rfl

/-- If Text Write answers Forbidden, it did so at its prefix check, before
any filesystem access: state and trace are untouched. -/
theorem textWriteBranch_forbidden (wd sub : JSStr) (body : List Nat) (fs : FsNode) (tr : List FsOp)
    (h : (textWriteBranch wd sub body fs tr).resp = some forbiddenOut) :
    textWriteBranch wd sub body fs tr = .handled forbiddenOut fs tr := by
  unfold textWriteBranch at h ⊢
  by_cases hck : jsStartsWith (pathJoin wd (stripTextPrefix sub)) wd = true
  · simp only [hck, not_true_eq_false, if_false, ite_false, Bool.not_eq_true] at h ⊢
    cases hl : fsWriteFile fs (segsOf (pathJoin wd (stripTextPrefix sub)))
        (utf8EncodeL (utf8DecodeReplace body)) with
    | none => rw [hl] at h; simp [Outcome.resp, forbiddenOut] at h
    | some fs2 => rw [hl] at h; simp [Outcome.resp, forbiddenOut] at h
  · simp only [Bool.not_eq_true] at hck
    simp only [hck, Bool.false_eq_true, not_false_eq_true, if_true, ite_true]
    rfl

/-- If the file operations block answers Forbidden, it did so at one of its
prefix checks, before any filesystem access: state and trace are untouched. -/
theorem fileOps_forbidden (root wd sub pn m : JSStr) (body : List Nat) (fs : FsNode)
    (tr : List FsOp) (out : Outcome)
    (hout : fileOps root wd sub pn m body fs tr = some out)
    (h : out.resp = some forbiddenOut) :
    out = .handled forbiddenOut fs tr := by
  cases hdec : decodeURIComponentM sub with
  | none =>
    simp only [fileOps, hdec, Option.some.injEq] at hout
    subst hout
    simp [Outcome.resp] at h
  | some fn =>
    simp only [fileOps, hdec] at hout
    split_ifs at hout with hc0 hc1 hc2 hc3 hc4
    · simp only [Option.some.injEq] at hout
      subst hout
      exact absurd h (downloadBranch_resp_ne _ _ _ _)
    · simp only [Option.some.injEq] at hout
      subst hout
      exact absurd h (deleteBranch_resp_ne _ _ _)
    · simp only [Option.some.injEq] at hout
      subst hout
      exact textReadBranch_forbidden _ _ _ _ h
    · simp only [Option.some.injEq] at hout
      subst hout
      exact textWriteBranch_forbidden _ _ _ _ _ h
    · injection hout with h2
      first
        | exact h2
        | exact h2.symm

/-- If the post-root stage of the handler answers Forbidden, the state and
trace it was entered with are returned untouched. -/
theorem handleAfterRoot_forbidden (root : JSStr) (req : Request) (fs1 : FsNode) (tr1 : List FsOp)
    (hresp : (handleAfterRoot root req fs1 tr1).resp = some forbiddenOut) :
    handleAfterRoot root req fs1 tr1 = .handled forbiddenOut fs1 tr1 := by
  unfold handleAfterRoot at hresp ⊢
  by_cases hwd : jsStartsWith (pathJoin root req.queryPath) root = true
  · simp only [hwd, not_true_eq_false, if_false, ite_false] at hresp ⊢
    by_cases hlist : stripLeadingSlashes (req.pathname.drop (uc "/api/workspace").length) = [] ∧
        req.method = uc "GET"
    · rw [if_pos hlist] at hresp ⊢
      exact absurd hresp (listBranch_resp_ne _ _ _)
    · rw [if_neg hlist] at hresp ⊢
      by_cases hsubne : stripLeadingSlashes (req.pathname.drop (uc "/api/workspace").length) ≠ []
      · rw [if_pos hsubne] at hresp ⊢
        revert hresp
        cases hfo : fileOps root (pathJoin root req.queryPath)
            (stripLeadingSlashes (req.pathname.drop (uc "/api/workspace").length))
            req.pathname req.method req.body fs1 tr1 with
        | some out =>
          intro hresp
          exact fileOps_forbidden _ _ _ _ _ _ _ _ _ hfo hresp
        | none =>
          intro hresp
          have hresp2 : (if req.pathname = uc "/api/workspace/upload" ∧ req.method = uc "POST" then
              uploadBranch (pathJoin root req.queryPath) req.boundary req.body fs1 tr1
            else .notHandled fs1 tr1).resp = some forbiddenOut := hresp
          by_cases hup : req.pathname = uc "/api/workspace/upload" ∧ req.method = uc "POST"
          · rw [if_pos hup] at hresp2
            exact absurd hresp2 (uploadBranch_resp_ne _ _ _ _ _)
          · rw [if_neg hup] at hresp2
            simp [Outcome.resp] at hresp2
      · rw [if_neg hsubne] at hresp ⊢
        have hresp2 : (if req.pathname = uc "/api/workspace/upload" ∧ req.method = uc "POST" then
            uploadBranch (pathJoin root req.queryPath) req.boundary req.body fs1 tr1
          else .notHandled fs1 tr1).resp = some forbiddenOut := hresp
        by_cases hup : req.pathname = uc "/api/workspace/upload" ∧ req.method = uc "POST"
        · rw [if_pos hup] at hresp2
          exact absurd hresp2 (uploadBranch_resp_ne _ _ _ _ _)
        · rw [if_neg hup] at hresp2
          simp [Outcome.resp] at hresp2
  · simp only [Bool.not_eq_true] at hwd
    simp only [hwd, Bool.false_eq_true, not_false_eq_true, if_true, ite_true]
    rfl

/-- C6, amended.  Whenever the handler rejects a request with Forbidden, the
only filesystem accesses of the whole request are the workspace root
existence probe and its lazy creation, performed before the check; in
particular, when the root already existed, the filesystem is unchanged. -/
theorem c6_amended_rejection_touches_only_root (root : JSStr) (req : Request) (fs0 : FsNode)
    (hresp : (handleWorkspaceHttpRequest root req fs0).resp = some (.jsonErr 403 (uc "Forbidden"))) :
    (∀ op ∈ (handleWorkspaceHttpRequest root req fs0).trace,
      op = .opExistsCheck root ∨ op = .opMkdir root) ∧
    ((lookup fs0 (segsOf root)).isSome = true →
      (handleWorkspaceHttpRequest root req fs0).fsAfter = fs0) := by
  by_cases hapi : jsStartsWith req.pathname (uc "/api/workspace") = true
  · cases her : ensureRoot root fs0 with
    | none =>
      have hh : handleWorkspaceHttpRequest root req fs0 =
          .threw fs0 [.opExistsCheck root, .opMkdir root] := by
        unfold handleWorkspaceHttpRequest
        simp [hapi, her]
      rw [hh] at hresp
      simp [Outcome.resp] at hresp
    | some pair =>
      obtain ⟨fs1, tr1⟩ := pair
      have hh : handleWorkspaceHttpRequest root req fs0 = handleAfterRoot root req fs1 tr1 := by
        unfold handleWorkspaceHttpRequest
        simp [hapi, her]
      rw [hh] at hresp ⊢
      have hfb := handleAfterRoot_forbidden root req fs1 tr1 (by simpa [forbiddenOut] using hresp)
      rw [hfb]
      unfold ensureRoot at her
      by_cases hex : (lookup fs0 (segsOf root)).isSome = true
      · rw [if_pos hex] at her
        simp only [Option.some.injEq, Prod.mk.injEq] at her
        obtain ⟨hfs, htr⟩ := her
        subst hfs
        subst htr
        constructor
        · intro op hop
          simp only [Outcome.trace, List.mem_singleton] at hop
          exact Or.inl hop
        · intro _
          rfl
      · rw [if_neg hex] at her
        cases hmk : mkdirRec fs0 (segsOf root) with
        | none => rw [hmk] at her; simp at her
        | some f =>
          rw [hmk] at her
          simp only [Option.map_some', Option.some.injEq, Prod.mk.injEq] at her
          obtain ⟨hfs, htr⟩ := her
          subst hfs
          subst htr
          constructor
          · intro op hop
            simp only [Outcome.trace, List.mem_cons, List.mem_singleton] at hop
            rcases hop with h | h | h
            · exact Or.inl h
            · exact Or.inr h
            · exact absurd h (by simp)
          · intro hcon
            exact absurd hcon hex
  · have hh : handleWorkspaceHttpRequest root req fs0 = .notHandled fs0 [] := by
      unfold handleWorkspaceHttpRequest
      simp only [Bool.not_eq_true] at hapi
      simp [hapi]
    rw [hh] at hresp
    simp [Outcome.resp] at hresp

/-- C6, witness: a traversing `path` query against an existing root is
rejected and touches only the root. -/
theorem c6_witness :
    (∀ op ∈ (handleWorkspaceHttpRequest wsRoot c6Req fsEvil).trace,
      op = .opExistsCheck wsRoot ∨ op = .opMkdir wsRoot) ∧
    ((lookup fsEvil (segsOf wsRoot)).isSome = true →
      (handleWorkspaceHttpRequest wsRoot c6Req fsEvil).fsAfter = fsEvil) :=
  c6_amended_rejection_touches_only_root wsRoot c6Req fsEvil (by decide)

theorem jsStartsWith_refl (a : JSStr) : jsStartsWith a a = true := by
  simp [jsStartsWith, List.isPrefixOf_iff_prefix]

theorem jsStartsWith_trans (a b c : JSStr) (h1 : jsStartsWith b a = true)
    (h2 : jsStartsWith c b = true) : jsStartsWith c a = true := by
  simp only [jsStartsWith, List.isPrefixOf_iff_prefix] at h1 h2 ⊢
  exact h1.trans h2

theorem jsStartsWith_append (a b : JSStr) : jsStartsWith (a ++ b) a = true := by
  simp [jsStartsWith, List.isPrefixOf_iff_prefix]

theorem splitOnChar_ne_nil (c : Nat) (s : List Nat) : splitOnChar c s ≠ [] := by
  induction s with
  | nil => simp [splitOnChar]
  | cons x rest ih =>
    simp only [splitOnChar]
    by_cases hx : x = c
    · simp [hx]
    · simp only [if_neg hx]
      cases h : splitOnChar c rest with
      | nil => simp
      | cons a b => simp

theorem splitOnChar_append_cons (c : Nat) (u v : List Nat) :
    splitOnChar c (u ++ c :: v) = splitOnChar c u ++ splitOnChar c v := by
  induction u with
  | nil =>
    show splitOnChar c (c :: v) = splitOnChar c [] ++ splitOnChar c v
    simp only [splitOnChar, if_pos rfl]
    rfl
  | cons x u ih =>
    show splitOnChar c (x :: (u ++ c :: v)) = splitOnChar c (x :: u) ++ splitOnChar c v
    by_cases hx : x = c
    · simp only [splitOnChar, if_pos hx, ih, List.cons_append]
    · simp only [splitOnChar, if_neg hx, ih]
      cases hu : splitOnChar c u with
      | nil => exact absurd hu (splitOnChar_ne_nil c u)
      | cons h t => simp [List.cons_append]

theorem splitOnChar_not_mem (c : Nat) (s : List Nat) (h : c ∉ s) :
    splitOnChar c s = [s] := by
  induction s with
  | nil => rfl
  | cons x rest ih =>
    have hx : x ≠ c := fun hcon => h (hcon ▸ List.mem_cons_self x rest)
    have hrest : c ∉ rest := fun hcon => h (List.mem_cons_of_mem x hcon)
    simp only [splitOnChar, if_neg hx, ih hrest]

theorem joinSlash_cons_cons (s t : JSStr) (rest : List JSStr) :
    joinSlash (s :: t :: rest) = s ++ 47 :: joinSlash (t :: rest) := rfl

theorem splitOnChar_joinSlash (segs : List JSStr) (hne : segs ≠ [])
    (hclean : ∀ s ∈ segs, 47 ∉ s) :
    splitOnChar 47 (joinSlash segs) = segs := by
  induction segs with
  | nil => exact absurd rfl hne
  | cons s rest ih =>
    cases rest with
    | nil =>
      show splitOnChar 47 s = [s]
      exact splitOnChar_not_mem 47 s (hclean s (List.mem_cons_self s []))
    | cons t rest2 =>
      rw [joinSlash_cons_cons]
      rw [splitOnChar_append_cons]
      rw [splitOnChar_not_mem 47 s (hclean s (List.mem_cons_self s _)),
        ih (by simp) (fun x hx => hclean x (List.mem_cons_of_mem s hx))]
      rfl

theorem splitOnChar_mem_not (c : Nat) (s : List Nat) :
    ∀ x ∈ splitOnChar c s, c ∉ x := by
  induction s with
  | nil =>
    intro x hx
    simp only [splitOnChar, List.mem_singleton] at hx
    subst hx
    simp
  | cons y rest ih =>
    intro x hx
    by_cases hy : y = c
    · simp only [splitOnChar, if_pos hy, List.mem_cons] at hx
      rcases hx with h | h
      · subst h; simp
      · exact ih x h
    · simp only [splitOnChar, if_neg hy] at hx
      cases hr : splitOnChar c rest with
      | nil => exact absurd hr (splitOnChar_ne_nil c rest)
      | cons h t =>
        rw [hr] at hx
        simp only [List.mem_cons] at hx
        rcases hx with h1 | h1
        · subst h1
          intro hcon
          rcases List.mem_cons.mp hcon with h2 | h2
          · exact hy h2.symm
          · exact ih h (by rw [hr]; exact List.mem_cons_self h t) h2
        · exact ih x (by rw [hr]; exact List.mem_cons_of_mem h h1)

theorem normSegs_clean_eq (ab : Bool) (l : List JSStr) :
    ∀ acc, (∀ s ∈ l, s = [] ∨ (s ≠ uc "." ∧ s ≠ uc "..")) →
    normSegs ab acc l = acc.reverse ++ l.filter (· ≠ []) := by
  induction l with
  | nil => intro acc _; simp [normSegs]
  | cons seg rest ih =>
    intro acc h
    by_cases hnil : seg = []
    · subst hnil
      simp only [normSegs, if_pos (Or.inl rfl)]
      rw [ih acc (fun s hs => h s (List.mem_cons_of_mem _ hs))]
      simp [List.filter]
    · rcases h seg (List.mem_cons_self seg rest) with h0 | ⟨hdot, hdd⟩
      · exact absurd h0 hnil
      · have hguard : ¬ (seg = [] ∨ seg = uc ".") := by
          rintro (h1 | h1)
          · exact hnil h1
          · exact hdot h1
        simp only [normSegs, if_neg hguard, if_neg hdd]
        rw [ih (seg :: acc) (fun s hs => h s (List.mem_cons_of_mem _ hs))]
        simp only [List.reverse_cons, List.filter, hnil, List.append_assoc]
        have : (seg ≠ []) = true := by simp [hnil]
        simp [List.filter_cons, hnil]

theorem normSegs_all_clean (l : List JSStr) :
    ∀ acc, (∀ s ∈ l, 47 ∉ s) → (∀ s ∈ acc, cleanSegB s = true) →
    ∀ s ∈ normSegs false acc l, cleanSegB s = true := by
  induction l with
  | nil =>
    intro acc _ hacc s hs
    simp only [normSegs, List.mem_reverse] at hs
    exact hacc s hs
  | cons seg rest ih =>
    intro acc hl hacc
    have hrest : ∀ s ∈ rest, 47 ∉ s := fun s hs => hl s (List.mem_cons_of_mem _ hs)
    by_cases h1 : seg = [] ∨ seg = uc "."
    · simp only [normSegs, if_pos h1]
      exact ih acc hrest hacc
    · by_cases h2 : seg = uc ".."
      · simp only [normSegs, if_neg h1, if_pos h2]
        cases acc with
        | nil => exact ih [] hrest (by simp)
        | cons a as =>
          have ha : cleanSegB a = true := hacc a (List.mem_cons_self a as)
          have hadd : a ≠ uc ".." := by
            simp only [cleanSegB, decide_eq_true_eq] at ha
            exact ha.2.2.2
          simp only [if_neg hadd]
          exact ih as hrest (fun s hs => hacc s (List.mem_cons_of_mem a hs))
      · simp only [normSegs, if_neg h1, if_neg h2]
        have hseg : cleanSegB seg = true := by
          simp only [cleanSegB, decide_eq_true_eq]
          push_neg at h1
          exact ⟨h1.1, hl seg (List.mem_cons_self seg rest), h1.2, h2⟩
        exact ih (seg :: acc) hrest (fun s hs => by
          rcases List.mem_cons.mp hs with h | h
          · subst h; exact hseg
          · exact hacc s h)

theorem joinSlash_ne_nil (segs : List JSStr) (hne : segs ≠ [])
    (hclean : ∀ s ∈ segs, s ≠ []) : joinSlash segs ≠ [] := by
  cases segs with
  | nil => exact absurd rfl hne
  | cons s rest =>
    cases rest with
    | nil => exact hclean s (List.mem_cons_self s [])
    | cons t r2 =>
      rw [joinSlash_cons_cons]
      intro hcon
      exact absurd (List.append_eq_nil.mp hcon).2 (by simp)

theorem joinSlash_single (s : JSStr) : joinSlash [s] = s := rfl

theorem joinSlash_append_single (segs : List JSStr) (n : JSStr) (hne : segs ≠ []) :
    joinSlash (segs ++ [n]) = joinSlash segs ++ 47 :: n := by
  induction segs with
  | nil => exact absurd rfl hne
  | cons s rest ih =>
    cases rest with
    | nil => rfl
    | cons t r2 =>
      show joinSlash (s :: ((t :: r2) ++ [n])) = (s ++ 47 :: joinSlash (t :: r2)) ++ 47 :: n
      have h2 : (t :: r2) ++ [n] = t :: (r2 ++ [n]) := rfl
      rw [h2, joinSlash_cons_cons]
      cases r2 with
      | nil => simp [joinSlash_cons_cons, joinSlash_single, List.append_assoc]
      | cons u r3 =>
        have := ih (by simp)
        rw [show t :: (u :: r3 ++ [n]) = (t :: u :: r3) ++ [n] from rfl, this]
        simp [List.append_assoc]

theorem getLast?_joinSlash_clean (segs : List JSStr) (hne : segs ≠ [])
    (hclean : ∀ s ∈ segs, cleanSegB s = true) :
    (joinSlash segs).getLast? ≠ some 47 := by
  induction segs with
  | nil => exact absurd rfl hne
  | cons s rest ih =>
    cases rest with
    | nil =>
      show s.getLast? ≠ some 47
      intro hcon
      have hs := hclean s (List.mem_cons_self s [])
      simp only [cleanSegB, decide_eq_true_eq] at hs
      exact hs.2.1 (List.mem_of_mem_getLast? (Option.mem_def.mpr hcon))
    | cons t r2 =>
      rw [joinSlash_cons_cons]
      have hrest : ∀ x ∈ t :: r2, cleanSegB x = true :=
        fun x hx => hclean x (List.mem_cons_of_mem s hx)
      have hjn : joinSlash (t :: r2) ≠ [] :=
        joinSlash_ne_nil (t :: r2) (by simp) (fun x hx => by
          have := hrest x hx
          simp only [cleanSegB, decide_eq_true_eq] at this
          exact this.1)
      rw [List.getLast?_append]
      have h47 : (47 :: joinSlash (t :: r2)).getLast? = (joinSlash (t :: r2)).getLast? := by
        cases hj : joinSlash (t :: r2) with
        | nil => exact absurd hj hjn
        | cons a b => simp [List.getLast?_cons_cons]
      rw [h47]
      cases hj : (joinSlash (t :: r2)).getLast? with
      | none =>
        exact absurd (List.getLast?_eq_none_iff.mp hj) hjn
      | some v =>
        have := ih (by simp) hrest
        rw [hj] at this
        simpa using this

theorem normalizePath_canon (s : JSStr) (habs : s.head? = some 47) :
    ∃ segs : List JSStr, (∀ x ∈ segs, cleanSegB x = true) ∧
      (normalizePath s = 47 :: joinSlash segs ∨
       (segs ≠ [] ∧ normalizePath s = 47 :: (joinSlash segs ++ [47]))) := by
  have hsne : s ≠ [] := by intro hcon; rw [hcon] at habs; simp at habs
  have hclean : ∀ x ∈ normSegs false [] (splitOnChar 47 s), cleanSegB x = true :=
    normSegs_all_clean _ [] (splitOnChar_mem_not 47 s) (by simp)
  have hdec : decide (s.head? = some 47) = true := decide_eq_true habs
  have hexp : normalizePath s =
      (if joinSlash (normSegs false [] (splitOnChar 47 s)) = [] then [47]
       else if s.getLast? = some 47 then
         47 :: (joinSlash (normSegs false [] (splitOnChar 47 s)) ++ [47])
       else 47 :: joinSlash (normSegs false [] (splitOnChar 47 s))) := by
    unfold normalizePath
    rw [if_neg hsne]
    simp only [hdec, Bool.not_true, if_pos habs]
    by_cases hcore : joinSlash (normSegs false [] (splitOnChar 47 s)) = []
    · rw [if_pos hcore, if_pos hcore]
    · rw [if_neg hcore, if_neg hcore]
      by_cases htr : s.getLast? = some 47
      · rw [if_pos htr, if_pos htr]
      · rw [if_neg htr, if_neg htr]
  rw [hexp]
  by_cases hcore : joinSlash (normSegs false [] (splitOnChar 47 s)) = []
  · rw [if_pos hcore]
    exact ⟨[], by simp, Or.inl rfl⟩
  · rw [if_neg hcore]
    by_cases htr : s.getLast? = some 47
    · rw [if_pos htr]
      refine ⟨normSegs false [] (splitOnChar 47 s), hclean, Or.inr ⟨?_, rfl⟩⟩
      intro hcon
      exact hcore (by rw [hcon]; rfl)
    · rw [if_neg htr]
      exact ⟨normSegs false [] (splitOnChar 47 s), hclean, Or.inl rfl⟩

theorem niceRootB_spec (root : JSStr) (h : niceRootB root = true) :
    ∃ rsegs : List JSStr, rsegs ≠ [] ∧ (∀ s ∈ rsegs, cleanSegB s = true) ∧
      root = 47 :: joinSlash rsegs := by
  simp only [niceRootB, decide_eq_true_eq] at h
  exact ⟨segsOf root, h.1, h.2.1, h.2.2⟩

theorem niceRoot_head (root : JSStr) (h : niceRootB root = true) : root.head? = some 47 := by
  obtain ⟨rsegs, _, _, heq⟩ := niceRootB_spec root h
  rw [heq]
  rfl

theorem niceRoot_ne_nil (root : JSStr) (h : niceRootB root = true) : root ≠ [] := by
  obtain ⟨rsegs, _, _, heq⟩ := niceRootB_spec root h
  rw [heq]
  simp

theorem niceRoot_len2 (root : JSStr) (h : niceRootB root = true) : 2 ≤ root.length := by
  obtain ⟨rsegs, hne, hclean, heq⟩ := niceRootB_spec root h
  have hjn : joinSlash rsegs ≠ [] :=
    joinSlash_ne_nil rsegs hne (fun x hx => by
      have := hclean x hx
      simp only [cleanSegB, decide_eq_true_eq] at this
      exact this.1)
  rw [heq]
  simp only [List.length_cons]
  have : 0 < (joinSlash rsegs).length := List.length_pos.mpr hjn
  omega

theorem niceRoot_last (root : JSStr) (h : niceRootB root = true) :
    root.getLast? ≠ some 47 := by
  obtain ⟨rsegs, hne, hclean, heq⟩ := niceRootB_spec root h
  have hjn : joinSlash rsegs ≠ [] :=
    joinSlash_ne_nil rsegs hne (fun x hx => by
      have := hclean x hx
      simp only [cleanSegB, decide_eq_true_eq] at this
      exact this.1)
  rw [heq]
  have hgl := getLast?_joinSlash_clean rsegs hne hclean
  cases hj : joinSlash rsegs with
  | nil => exact absurd hj hjn
  | cons a b =>
    rw [List.getLast?_cons_cons]
    rw [hj] at hgl
    exact hgl

theorem pathJoin_canon (root qp : JSStr) (hroot : niceRootB root = true) :
    ∃ segs : List JSStr, (∀ x ∈ segs, cleanSegB x = true) ∧
      (pathJoin root qp = 47 :: joinSlash segs ∨
       (segs ≠ [] ∧ pathJoin root qp = 47 :: (joinSlash segs ++ [47]))) := by
  have hrne := niceRoot_ne_nil root hroot
  have hrhd := niceRoot_head root hroot
  by_cases hqp : qp = []
  · subst hqp
    have hfil : [root, ([] : JSStr)].filter (· ≠ []) = [root] := by simp [hrne]
    have hj : pathJoin root [] = normalizePath root := by
      simp only [pathJoin]
      rw [hfil, joinSlash_single, if_neg hrne]
    rw [hj]
    exact normalizePath_canon root hrhd
  · have hfil : [root, qp].filter (· ≠ []) = [root, qp] := by simp [hrne, hqp]
    have hj : pathJoin root qp = normalizePath (root ++ 47 :: qp) := by
      simp only [pathJoin]
      rw [hfil, joinSlash_cons_cons, joinSlash_single, if_neg (by simp [hrne])]
    rw [hj]
    apply normalizePath_canon
    cases root with
    | nil => exact absurd rfl hrne
    | cons a b =>
      simp only [List.head?] at hrhd ⊢
      simpa using hrhd

theorem cleanSegB_spec (n : JSStr) (h : cleanSegB n = true) :
    n ≠ [] ∧ 47 ∉ n ∧ n ≠ uc "." ∧ n ≠ uc ".." := by
  simpa [cleanSegB, decide_eq_true_eq] using h

theorem filter_ne_nil_clean (segs : List JSStr) (h : ∀ x ∈ segs, x ≠ []) :
    segs.filter (fun x => decide (x ≠ [])) = segs :=
  List.filter_eq_self.mpr (fun x hx => by simp [h x hx])

theorem pathJoin_canon_seg (w n : JSStr) (segs : List JSStr)
    (hsegs : ∀ x ∈ segs, cleanSegB x = true) (hsegne : segs ≠ [])
    (hw : w = 47 :: joinSlash segs ∨ w = 47 :: (joinSlash segs ++ [47]))
    (hn : cleanSegB n = true) :
    pathJoin w n = (47 :: joinSlash segs) ++ 47 :: n := by
  obtain ⟨hnne, hn47, hndot, hndd⟩ := cleanSegB_spec n hn
  have hsegsne : ∀ x ∈ segs, x ≠ [] := fun x hx => (cleanSegB_spec x (hsegs x hx)).1
  have hwne : w ≠ [] := by rcases hw with h | h <;> simp [h]
  have hfil : [w, n].filter (· ≠ []) = [w, n] := by simp [hwne, hnne]
  have hj : pathJoin w n = normalizePath (w ++ 47 :: n) := by
    simp only [pathJoin]
    rw [hfil, joinSlash_cons_cons, joinSlash_single, if_neg (by simp [hwne])]
  rw [hj]
  have hjs : splitOnChar 47 (joinSlash segs) = segs :=
    splitOnChar_joinSlash segs hsegne (fun x hx => ((cleanSegB_spec x (hsegs x hx)).2.1))
  have hsplitw : splitOnChar 47 w = [] :: segs ∨
      splitOnChar 47 w = ([] :: segs) ++ [[]] := by
    rcases hw with h | h
    · left
      rw [h, show (47 : Nat) :: joinSlash segs = [] ++ 47 :: joinSlash segs from rfl,
        splitOnChar_append_cons, hjs]
      rfl
    · right
      rw [h, show (47 : Nat) :: (joinSlash segs ++ [47]) =
          [] ++ 47 :: (joinSlash segs ++ 47 :: []) from by simp,
        splitOnChar_append_cons, splitOnChar_append_cons, hjs]
      rfl
  have hsplit : splitOnChar 47 (w ++ 47 :: n) = splitOnChar 47 w ++ [n] := by
    rw [splitOnChar_append_cons, splitOnChar_not_mem 47 n hn47]
  have habs : (w ++ 47 :: n).head? = some 47 := by
    rcases hw with h | h <;> simp [h]
  have hlast : (w ++ 47 :: n).getLast? ≠ some 47 := by
    intro hcon
    rw [List.getLast?_append] at hcon
    cases hnc : n with
    | nil => exact hnne hnc
    | cons a b =>
      subst hnc
      rw [List.getLast?_cons_cons] at hcon
      cases hgl : (a :: b).getLast? with
      | none => simp [List.getLast?_eq_none_iff] at hgl
      | some v =>
        rw [hgl] at hcon
        simp only [Option.or_some] at hcon
        have hv : v = 47 := Option.some.inj hcon
        subst hv
        exact hn47 (List.mem_of_mem_getLast? (Option.mem_def.mpr hgl))
  have hnormsegs : normSegs false [] (splitOnChar 47 (w ++ 47 :: n)) = segs ++ [n] := by
    rw [hsplit]
    have hcondA : ∀ x ∈ ([] :: segs) ++ [n], x = [] ∨ (x ≠ uc "." ∧ x ≠ uc "..") := by
      intro x hx
      rcases List.mem_append.mp hx with h1 | h1
      · rcases List.mem_cons.mp h1 with h2 | h2
        · exact Or.inl h2
        · have := cleanSegB_spec x (hsegs x h2)
          exact Or.inr ⟨this.2.2.1, this.2.2.2⟩
      · have h3 : x = n := List.mem_singleton.mp h1
        rw [h3]
        exact Or.inr ⟨hndot, hndd⟩
    have hcondB : ∀ x ∈ (([] :: segs) ++ [[]]) ++ [n], x = [] ∨ (x ≠ uc "." ∧ x ≠ uc "..") := by
      intro x hx
      rcases List.mem_append.mp hx with h1 | h1
      · rcases List.mem_append.mp h1 with h2 | h2
        · rcases List.mem_cons.mp h2 with h3 | h3
          · exact Or.inl h3
          · have := cleanSegB_spec x (hsegs x h3)
            exact Or.inr ⟨this.2.2.1, this.2.2.2⟩
        · exact Or.inl (List.mem_singleton.mp h2)
      · have h3 : x = n := List.mem_singleton.mp h1
        rw [h3]
        exact Or.inr ⟨hndot, hndd⟩
    have hfsegs : segs.filter (fun x => decide (x ≠ [])) = segs := filter_ne_nil_clean segs hsegsne
    have hfn : ([n] : List JSStr).filter (fun x => decide (x ≠ [])) = [n] :=
      filter_ne_nil_clean [n] (fun x hx => (List.mem_singleton.mp hx) ▸ hnne)
    rcases hsplitw with h | h <;> rw [h]
    · rw [normSegs_clean_eq false _ [] hcondA]
      simp only [List.reverse_nil, List.nil_append, List.cons_append]
      rw [List.filter_cons_of_neg (by simp), List.filter_append]
      simp only [ne_eq, decide_not] at hfsegs hfn ⊢
      rw [hfsegs, hfn]
    · rw [normSegs_clean_eq false _ [] hcondB]
      simp only [List.reverse_nil, List.nil_append]
      rw [show ((([] : JSStr) :: segs) ++ [[]]) ++ [n] = ([] : JSStr) :: (segs ++ [[], n]) from by
        simp]
      rw [List.filter_cons_of_neg (by simp), List.filter_append]
      have hftail : ([([] : JSStr), n] : List JSStr).filter (fun x => decide (x ≠ [])) = [n] := by
        simp [hnne]
      simp only [ne_eq, decide_not] at hfsegs hftail ⊢
      rw [hfsegs, hftail]
  have hcore : joinSlash (normSegs false [] (splitOnChar 47 (w ++ 47 :: n))) =
      joinSlash segs ++ 47 :: n := by
    rw [hnormsegs, joinSlash_append_single segs n hsegne]
  have hwne2 : w ++ 47 :: n ≠ [] := by simp [hwne]
  have hdec : decide ((w ++ 47 :: n).head? = some 47) = true := decide_eq_true habs
  unfold normalizePath
  rw [if_neg hwne2]
  simp only [hdec, Bool.not_true, if_pos habs]
  rw [if_neg (by rw [hcore]; simp)]
  rw [if_neg hlast]
  rw [hcore]
  rfl

theorem canon_prefix_step (root w n : JSStr) (segs : List JSStr)
    (hsegs : ∀ x ∈ segs, cleanSegB x = true)
    (hwshape : w = 47 :: joinSlash segs ∨ (segs ≠ [] ∧ w = 47 :: (joinSlash segs ++ [47])))
    (hroot : niceRootB root = true)
    (hpre : jsStartsWith w root = true)
    (hn : cleanSegB n = true) :
    jsStartsWith (pathJoin w n) root = true := by
  have hlen2 := niceRoot_len2 root hroot
  have hlast := niceRoot_last root hroot
  by_cases hsegne : segs = []
  · subst hsegne
    rcases hwshape with h | ⟨hne, _⟩
    · rw [h] at hpre
      simp only [jsStartsWith, List.isPrefixOf_iff_prefix] at hpre
      have hlen1 : root.length ≤ 1 := by simpa [joinSlash] using hpre.length_le
      omega
    · exact absurd rfl hne
  · have hwshape2 : w = 47 :: joinSlash segs ∨ w = 47 :: (joinSlash segs ++ [47]) := by
      rcases hwshape with h | ⟨-, h⟩
      · exact Or.inl h
      · exact Or.inr h
    rw [pathJoin_canon_seg w n segs hsegs hsegne hwshape2 hn]
    simp only [jsStartsWith, List.isPrefixOf_iff_prefix] at hpre ⊢
    have hbase : root <+: 47 :: joinSlash segs := by
      rcases hwshape2 with h | h
      · rw [h] at hpre
        exact hpre
      · rw [h] at hpre
        have hb : (47 : Nat) :: (joinSlash segs ++ [47]) = (47 :: joinSlash segs) ++ [47] := by
          simp
        rw [hb] at hpre
        rcases Nat.lt_or_ge root.length ((47 :: joinSlash segs) ++ [47]).length with hl | hl
        · apply List.prefix_of_prefix_length_le hpre (List.prefix_append _ _)
          simp only [List.length_append, List.length_cons, List.length_singleton,
            List.length_nil] at hl ⊢
          omega
        · have heq := hpre.eq_of_length_le hl
          exfalso
          apply hlast
          rw [heq]
          show ((47 :: joinSlash segs) ++ [47]).getLast? = some 47
          exact List.getLast?_concat _
    exact hbase.trans (List.prefix_append _ _)

theorem getChild_mem (ch : List (JSStr × FsNode)) (s : JSStr) (c : FsNode)
    (h : getChild ch s = some c) : (s, c) ∈ ch := by
  induction ch with
  | nil => simp [getChild] at h
  | cons p rest ih =>
    obtain ⟨n, v⟩ := p
    simp only [getChild] at h
    by_cases hn : n = s
    · rw [if_pos hn] at h
      subst hn
      simp only [Option.some.injEq] at h
      subst h
      exact List.mem_cons_self _ _
    · rw [if_neg hn] at h
      exact List.mem_cons_of_mem _ (ih h)

theorem wfNodeF_mono : ∀ (k k2 : Nat) (fs : FsNode), k ≤ k2 → wfNodeF k fs = true →
    wfNodeF k2 fs = true := by
  intro k
  induction k with
  | zero =>
    intro k2 fs _ hwf
    cases fs with
    | file c => cases k2 <;> rfl
    | dir ch => simp [wfNodeF] at hwf
  | succ k1 ih =>
    intro k2 fs hle hwf
    cases fs with
    | file c => cases k2 <;> rfl
    | dir ch =>
      cases k2 with
      | zero => omega
      | succ k2' =>
        simp only [wfNodeF, List.all_eq_true] at hwf ⊢
        intro p hp
        have := hwf p hp
        rw [Bool.and_eq_true] at this ⊢
        exact ⟨this.1, ih k2' p.2 (by omega) this.2⟩

theorem wfNodeF_children (segs : List JSStr) : ∀ (k : Nat) (fs : FsNode)
    (ch : List (JSStr × FsNode)), wfNodeF k fs = true → lookup fs segs = some (.dir ch) →
    ∀ p ∈ ch, cleanSegB p.1 = true := by
  induction segs with
  | nil =>
    intro k fs ch hwf hl
    simp only [lookup, Option.some.injEq] at hl
    subst hl
    cases k with
    | zero => simp [wfNodeF] at hwf
    | succ k2 =>
      intro p hp
      simp only [wfNodeF, List.all_eq_true] at hwf
      have h2 := hwf p hp
      rw [Bool.and_eq_true] at h2
      exact h2.1
  | cons s rest ih =>
    intro k fs ch hwf hl
    cases fs with
    | file c => simp [lookup] at hl
    | dir ch2 =>
      cases k with
      | zero => simp [wfNodeF] at hwf
      | succ k2 =>
        simp only [lookup] at hl
        cases hg : getChild ch2 s with
        | none => rw [hg] at hl; simp at hl
        | some c =>
          rw [hg] at hl
          have hmem := getChild_mem ch2 s c hg
          have hcwf : wfNodeF k2 c = true := by
            simp only [wfNodeF, List.all_eq_true] at hwf
            have h2 := hwf (s, c) hmem
            rw [Bool.and_eq_true] at h2
            exact h2.2
          exact ih k2 c ch hcwf hl

theorem setChild_mem (ch : List (JSStr × FsNode)) (s : JSStr) (v : FsNode) :
    ∀ p ∈ setChild ch s v, p = (s, v) ∨ p ∈ ch := by
  induction ch with
  | nil =>
    intro p hp
    simp only [setChild, List.mem_singleton] at hp
    exact Or.inl hp
  | cons q rest ih =>
    obtain ⟨n, c⟩ := q
    intro p hp
    simp only [setChild] at hp
    by_cases hn : n = s
    · rw [if_pos hn] at hp
      rcases List.mem_cons.mp hp with h | h
      · exact Or.inl h
      · exact Or.inr (List.mem_cons_of_mem _ h)
    · rw [if_neg hn] at hp
      rcases List.mem_cons.mp hp with h | h
      · exact Or.inr (h ▸ List.mem_cons_self _ _)
      · rcases ih p h with h2 | h2
        · exact Or.inl h2
        · exact Or.inr (List.mem_cons_of_mem _ h2)

theorem wf_mkdirRec (segs : List JSStr) : ∀ (fs : FsNode) (k : Nat),
    wfNodeF k fs = true → (∀ s ∈ segs, cleanSegB s = true) →
    ∀ f, mkdirRec fs segs = some f → wfNodeF (k + segs.length) f = true := by
  induction segs with
  | nil =>
    intro fs k hwf _ f hm
    cases fs with
    | file c => simp [mkdirRec] at hm
    | dir ch =>
      simp only [mkdirRec, Option.some.injEq] at hm
      subst hm
      simpa using hwf
  | cons s rest ih =>
    intro fs k hwf hclean f hm
    cases fs with
    | file c => simp [mkdirRec] at hm
    | dir ch =>
      cases k with
      | zero => simp [wfNodeF] at hwf
      | succ k2 =>
        simp only [mkdirRec] at hm
        have hrest : ∀ x ∈ rest, cleanSegB x = true :=
          fun x hx => hclean x (List.mem_cons_of_mem s hx)
        have hs : cleanSegB s = true := hclean s (List.mem_cons_self s rest)
        cases hg : getChild ch s with
        | some c =>
          simp only [mkdirRec, hg] at hm
          revert hm
          cases hm2 : mkdirRec c rest <;> intro hm
          · simp at hm
          · rename_i c2
            simp only [Option.map_some', Option.some.injEq] at hm
            subst hm
            have hcwf : wfNodeF k2 c = true := by
              simp only [wfNodeF, List.all_eq_true] at hwf
              have h2 := hwf (s, c) (getChild_mem ch s c hg)
              rw [Bool.and_eq_true] at h2
              exact h2.2
            have hc2 : wfNodeF (k2 + rest.length) c2 = true := ih c k2 hcwf hrest c2 hm2
            simp only [wfNodeF, List.all_eq_true, List.length_cons]
            intro p hp
            rw [Bool.and_eq_true]
            rcases setChild_mem ch s c2 p hp with h | h
            · subst h
              exact ⟨hs, wfNodeF_mono _ _ _ (by simp only [Nat.add_eq]; omega) hc2⟩
            · simp only [wfNodeF, List.all_eq_true] at hwf
              have h3 := hwf p h
              rw [Bool.and_eq_true] at h3
              exact ⟨h3.1, wfNodeF_mono _ _ _ (by simp only [Nat.add_eq]; omega) h3.2⟩
        | none =>
          simp only [mkdirRec, hg] at hm
          revert hm
          cases hm2 : mkdirRec (.dir []) rest <;> intro hm
          · simp at hm
          · rename_i c2
            simp only [Option.map_some', Option.some.injEq] at hm
            subst hm
            have hc2 : wfNodeF (1 + rest.length) c2 = true :=
              ih (.dir []) 1 (by rfl) hrest c2 hm2
            simp only [wfNodeF, List.all_eq_true, List.length_cons]
            intro p hp
            rw [Bool.and_eq_true]
            rcases List.mem_append.mp hp with h | h
            · simp only [wfNodeF, List.all_eq_true] at hwf
              have h3 := hwf p h
              rw [Bool.and_eq_true] at h3
              exact ⟨h3.1, wfNodeF_mono _ _ _ (by simp only [Nat.add_eq]; omega) h3.2⟩
            · have hpv : p = (s, c2) := List.mem_singleton.mp h
              subst hpv
              exact ⟨hs, wfNodeF_mono _ _ _ (by simp only [Nat.add_eq]; omega) hc2⟩

theorem trace_append_one (root : JSStr) (tr : List FsOp) (ops : List FsOp)
    (htr : ∀ op ∈ tr, jsStartsWith op.path root = true)
    (hops : ∀ op ∈ ops, jsStartsWith op.path root = true) :
    ∀ op ∈ tr ++ ops, jsStartsWith op.path root = true := by
  intro op hop
  rcases List.mem_append.mp hop with h | h
  · exact htr op h
  · exact hops op h

theorem downloadBranch_trace (root fn fp : JSStr) (fs : FsNode) (tr : List FsOp)
    (htr : ∀ op ∈ tr, jsStartsWith op.path root = true)
    (hfp : jsStartsWith fp root = true) :
    ∀ op ∈ (downloadBranch fn fp fs tr).trace, jsStartsWith op.path root = true := by
  unfold downloadBranch
  cases lookup fs (segsOf fp) with
  | none =>
    refine trace_append_one root tr _ htr ?_
    intro op hop
    simp only [List.mem_singleton] at hop
    subst hop
    exact hfp
  | some n =>
    cases n with
    | file c =>
      refine trace_append_one root tr _ htr ?_
      intro op hop
      rcases List.mem_cons.mp hop with h | h
      · subst h; exact hfp
      · simp only [List.mem_singleton] at h
        subst h; exact hfp
    | dir ch =>
      refine trace_append_one root tr _ htr ?_
      intro op hop
      rcases List.mem_cons.mp hop with h | h
      · subst h; exact hfp
      · simp only [List.mem_singleton] at h
        subst h; exact hfp

theorem deleteBranch_trace (root fp : JSStr) (fs : FsNode) (tr : List FsOp)
    (htr : ∀ op ∈ tr, jsStartsWith op.path root = true)
    (hfp : jsStartsWith fp root = true) :
    ∀ op ∈ (deleteBranch fp fs tr).trace, jsStartsWith op.path root = true := by
  unfold deleteBranch
  cases lookup fs (segsOf fp) with
  | none =>
    refine trace_append_one root tr _ htr ?_
    intro op hop
    simp only [List.mem_singleton] at hop
    subst hop
    exact hfp
  | some n =>
    refine trace_append_one root tr _ htr ?_
    intro op hop
    rcases List.mem_cons.mp hop with h | h
    · subst h; exact hfp
    · rcases List.mem_cons.mp h with h2 | h2
      · subst h2; exact hfp
      · simp only [List.mem_singleton] at h2
        subst h2; exact hfp

theorem textReadBranch_trace (root wd sub : JSStr) (fs : FsNode) (tr : List FsOp)
    (htr : ∀ op ∈ tr, jsStartsWith op.path root = true)
    (hwd : jsStartsWith wd root = true) :
    ∀ op ∈ (textReadBranch wd sub fs tr).trace, jsStartsWith op.path root = true := by
  unfold textReadBranch
  by_cases hck : jsStartsWith (pathJoin wd (stripTextPrefix sub)) wd = true
  · have hfp : jsStartsWith (pathJoin wd (stripTextPrefix sub)) root = true :=
      jsStartsWith_trans _ _ _ hwd hck
    simp only [hck, not_true_eq_false, if_false, ite_false]
    cases lookup fs (segsOf (pathJoin wd (stripTextPrefix sub))) with
    | none =>
      refine trace_append_one root tr _ htr ?_
      intro op hop
      simp only [List.mem_singleton] at hop
      subst hop
      exact hfp
    | some n =>
      cases n with
      | file c =>
        refine trace_append_one root tr _ htr ?_
        intro op hop
        rcases List.mem_cons.mp hop with h | h
        · subst h; exact hfp
        · simp only [List.mem_singleton] at h
          subst h; exact hfp
      | dir ch =>
        refine trace_append_one root tr _ htr ?_
        intro op hop
        rcases List.mem_cons.mp hop with h | h
        · subst h; exact hfp
        · simp only [List.mem_singleton] at h
          subst h; exact hfp
  · simp only [Bool.not_eq_true] at hck
    simp only [hck, Bool.false_eq_true, not_false_eq_true, if_true, ite_true]
    exact htr

theorem textWriteBranch_trace (root wd sub : JSStr) (body : List Nat) (fs : FsNode) (tr : List FsOp)
    (htr : ∀ op ∈ tr, jsStartsWith op.path root = true)
    (hwd : jsStartsWith wd root = true) :
    ∀ op ∈ (textWriteBranch wd sub body fs tr).trace, jsStartsWith op.path root = true := by
  unfold textWriteBranch
  by_cases hck : jsStartsWith (pathJoin wd (stripTextPrefix sub)) wd = true
  · have hfp : jsStartsWith (pathJoin wd (stripTextPrefix sub)) root = true :=
      jsStartsWith_trans _ _ _ hwd hck
    simp only [hck, not_true_eq_false, if_false, ite_false]
    cases fsWriteFile fs (segsOf (pathJoin wd (stripTextPrefix sub)))
        (utf8EncodeL (utf8DecodeReplace body)) with
    | none =>
      refine trace_append_one root tr _ htr ?_
      intro op hop
      simp only [List.mem_singleton] at hop
      subst hop
      exact hfp
    | some fs2 =>
      refine trace_append_one root tr _ htr ?_
      intro op hop
      simp only [List.mem_singleton] at hop
      subst hop
      exact hfp
  · simp only [Bool.not_eq_true] at hck
    simp only [hck, Bool.false_eq_true, not_false_eq_true, if_true, ite_true]
    exact htr

theorem processParts_trace (root wd : JSStr) (parts : List (List Nat)) :
    ∀ (fs : FsNode) (tr : List FsOp),
    (∀ op ∈ tr, jsStartsWith op.path root = true) →
    jsStartsWith wd root = true →
    ∀ op ∈ (processParts wd parts fs tr).trace, jsStartsWith op.path root = true := by
  induction parts with
  | nil => intro fs tr htr _; exact htr
  | cons part rest ih =>
    intro fs tr htr hwd
    unfold processParts
    cases hc : containsSeq part (uc "filename=\"") with
    | false => exact ih fs tr htr hwd
    | true =>
      simp only [hc]
      by_cases hck : jsStartsWith
          (pathJoin wd ((jsMatchFilename part).getD (uc "uploaded_file"))) wd = true
      · simp only [hck, if_true]
        have hfp : jsStartsWith
            (pathJoin wd ((jsMatchFilename part).getD (uc "uploaded_file"))) root = true :=
          jsStartsWith_trans _ _ _ hwd hck
        have htr2 : ∀ op ∈ tr ++
            [FsOp.opWriteFile (pathJoin wd ((jsMatchFilename part).getD (uc "uploaded_file")))],
            jsStartsWith op.path root = true := by
          refine trace_append_one root tr _ htr ?_
          intro op hop
          simp only [List.mem_singleton] at hop
          subst hop
          exact hfp
        cases fsWriteFile fs
            (segsOf (pathJoin wd ((jsMatchFilename part).getD (uc "uploaded_file"))))
            ((jsSlice part (jsIndexOfSeq part (uc "\r\n\r\n") + 4)
              (jsLastIndexOfSeq part (uc "\r\n"))).map (· % 256)) with
        | some fs2 => exact ih fs2 _ htr2 hwd
        | none => exact htr2
      · simp only [Bool.not_eq_true] at hck
        simp only [hck, Bool.false_eq_true, if_false]
        exact ih fs tr htr hwd

theorem uploadBranch_trace (root wd : JSStr) (bnd : Option JSStr) (body : List Nat)
    (fs : FsNode) (tr : List FsOp)
    (htr : ∀ op ∈ tr, jsStartsWith op.path root = true)
    (hwd : jsStartsWith wd root = true) :
    ∀ op ∈ (uploadBranch wd bnd body fs tr).trace, jsStartsWith op.path root = true := by
  unfold uploadBranch
  cases bnd with
  | none => exact htr
  | some b => exact processParts_trace root wd _ fs tr htr hwd

theorem listBranch_trace (root qp : JSStr) (k : Nat) (fs : FsNode) (tr1 : List FsOp)
    (hroot : niceRootB root = true) (hwf : wfNodeF k fs = true)
    (hwd : jsStartsWith (pathJoin root qp) root = true)
    (htr : ∀ op ∈ tr1, jsStartsWith op.path root = true) :
    ∀ op ∈ (listBranch (pathJoin root qp) fs tr1).trace, jsStartsWith op.path root = true := by
  obtain ⟨segs, hsegs, hshape⟩ := pathJoin_canon root qp hroot
  unfold listBranch
  cases hl : lookup fs (segsOf (pathJoin root qp)) with
  | none =>
    refine trace_append_one root tr1 _ htr ?_
    intro op hop
    simp only [List.mem_singleton] at hop
    subst hop
    exact hwd
  | some n =>
    cases n with
    | file c =>
      refine trace_append_one root tr1 _ htr ?_
      intro op hop
      simp only [List.mem_singleton] at hop
      subst hop
      exact hwd
    | dir ch =>
      have hchildren := wfNodeF_children (segsOf (pathJoin root qp)) k fs ch hwf hl
      refine trace_append_one root tr1 _ htr ?_
      intro op hop
      rcases List.mem_cons.mp hop with h | h
      · subst h; exact hwd
      · simp only [List.mem_map] at h
        obtain ⟨p, hp, rfl⟩ := h
        show jsStartsWith (pathJoin (pathJoin root qp) p.1) root = true
        exact canon_prefix_step root (pathJoin root qp) p.1 segs hsegs hshape hroot hwd
          (hchildren p hp)

theorem fileOps_trace (root qp sub pn m : JSStr) (body : List Nat) (fs : FsNode)
    (tr1 : List FsOp) (out : Outcome)
    (hout : fileOps root (pathJoin root qp) sub pn m body fs tr1 = some out)
    (hwd : jsStartsWith (pathJoin root qp) root = true)
    (htr : ∀ op ∈ tr1, jsStartsWith op.path root = true) :
    ∀ op ∈ out.trace, jsStartsWith op.path root = true := by
  cases hdec : decodeURIComponentM sub with
  | none =>
    simp only [fileOps, hdec, Option.some.injEq] at hout
    subst hout
    exact htr
  | some fn =>
    simp only [fileOps, hdec] at hout
    split_ifs at hout with hc0 hc1 hc2 hc3 hc4
    · simp only [Option.some.injEq] at hout
      subst hout
      exact downloadBranch_trace root fn _ fs tr1 htr hc0
    · simp only [Option.some.injEq] at hout
      subst hout
      exact deleteBranch_trace root _ fs tr1 htr hc0
    · simp only [Option.some.injEq] at hout
      subst hout
      exact textReadBranch_trace root _ sub fs tr1 htr hwd
    · simp only [Option.some.injEq] at hout
      subst hout
      exact textWriteBranch_trace root _ sub body fs tr1 htr hwd
    · injection hout with h2
      subst h2
      exact htr

theorem handleAfterRoot_trace (root : JSStr) (req : Request) (fs1 : FsNode) (tr1 : List FsOp)
    (k : Nat) (hroot : niceRootB root = true) (hwf : wfNodeF k fs1 = true)
    (htr : ∀ op ∈ tr1, jsStartsWith op.path root = true) :
    ∀ op ∈ (handleAfterRoot root req fs1 tr1).trace, jsStartsWith op.path root = true := by
  unfold handleAfterRoot
  by_cases hwd : jsStartsWith (pathJoin root req.queryPath) root = true
  · simp only [hwd, not_true_eq_false, if_false, ite_false]
    by_cases hlist : stripLeadingSlashes (req.pathname.drop (uc "/api/workspace").length) = [] ∧
        req.method = uc "GET"
    · rw [if_pos hlist]
      exact listBranch_trace root req.queryPath k fs1 tr1 hroot hwf hwd htr
    · rw [if_neg hlist]
      by_cases hsubne : stripLeadingSlashes (req.pathname.drop (uc "/api/workspace").length) ≠ []
      · rw [if_pos hsubne]
        cases hfo : fileOps root (pathJoin root req.queryPath)
            (stripLeadingSlashes (req.pathname.drop (uc "/api/workspace").length))
            req.pathname req.method req.body fs1 tr1 with
        | some out =>
          exact fileOps_trace root req.queryPath _ req.pathname req.method req.body fs1 tr1 out
            hfo hwd htr
        | none =>
          by_cases hup : req.pathname = uc "/api/workspace/upload" ∧ req.method = uc "POST"
          · rw [if_pos hup]
            exact uploadBranch_trace root _ req.boundary req.body fs1 tr1 htr hwd
          · rw [if_neg hup]
            exact htr
      · rw [if_neg hsubne]
        by_cases hup : req.pathname = uc "/api/workspace/upload" ∧ req.method = uc "POST"
        · rw [if_pos hup]
          exact uploadBranch_trace root _ req.boundary req.body fs1 tr1 htr hwd
        · rw [if_neg hup]
          exact htr
  · simp only [Bool.not_eq_true] at hwd
    simp only [hwd, Bool.false_eq_true, not_false_eq_true, if_true, ite_true]
    exact htr

/-- C1, amended.  The handler guarantees string-prefix containment only:
for every request handled against a normalized absolute workspace root and a
well-formed filesystem, every path the handler accesses begins with the root
as a plain string prefix.  As the counterexample shows, this is strictly
weaker than the path-prefix containment the claim states: a sibling
directory sharing the root as a string prefix is reachable. -/
theorem c1_amended_string_prefix_only (root : JSStr) (req : Request) (fs0 : FsNode) (k : Nat)
    (hroot : niceRootB root = true) (hwf : wfNodeF k fs0 = true) :
    ∀ op ∈ (handleWorkspaceHttpRequest root req fs0).trace,
      jsStartsWith op.path root = true := by
  unfold handleWorkspaceHttpRequest
  by_cases hapi : jsStartsWith req.pathname (uc "/api/workspace") = true
  · simp only [hapi, not_true_eq_false, if_false, ite_false]
    have hrootops : ∀ op ∈ [FsOp.opExistsCheck root, FsOp.opMkdir root],
        jsStartsWith op.path root = true := by
      intro op hop
      rcases List.mem_cons.mp hop with h | h
      · subst h; exact jsStartsWith_refl root
      · simp only [List.mem_singleton] at h
        subst h; exact jsStartsWith_refl root
    cases her : ensureRoot root fs0 with
    | none => exact hrootops
    | some pair =>
      obtain ⟨fs1, tr1⟩ := pair
      unfold ensureRoot at her
      by_cases hex : (lookup fs0 (segsOf root)).isSome = true
      · rw [if_pos hex] at her
        simp only [Option.some.injEq, Prod.mk.injEq] at her
        obtain ⟨hfs, htr⟩ := her
        subst hfs
        subst htr
        apply handleAfterRoot_trace root req fs0 _ k hroot hwf
        intro op hop
        simp only [List.mem_singleton] at hop
        subst hop
        exact jsStartsWith_refl root
      · rw [if_neg hex] at her
        cases hmk : mkdirRec fs0 (segsOf root) with
        | none => rw [hmk] at her; simp at her
        | some f =>
          rw [hmk] at her
          simp only [Option.map_some', Option.some.injEq, Prod.mk.injEq] at her
          obtain ⟨hfs, htr⟩ := her
          subst hfs
          subst htr
          have hclean : ∀ s ∈ segsOf root, cleanSegB s = true := by
            have h2 := hroot
            simp only [niceRootB, decide_eq_true_eq] at h2
            exact h2.2.1
          have hwf2 := wf_mkdirRec (segsOf root) fs0 k hwf hclean f hmk
          apply handleAfterRoot_trace root req f _ (k + (segsOf root).length) hroot hwf2
          exact hrootops
  · rw [if_pos hapi]
    intro op hop
    simp [Outcome.trace] at hop

/-- C1, witness: the sibling path streamed in the counterexample still
satisfies the (weaker) string-prefix guarantee. -/
theorem c1_witness :
    jsStartsWith (FsOp.opStream (uc "/data/ws-evil/secret")).path wsRoot = true :=
  c1_amended_string_prefix_only wsRoot c1Req fsEvil 5 (by decide) (by decide)
    (FsOp.opStream (uc "/data/ws-evil/secret")) (by decide)

/-! ### C2 support: occurrence analysis for the multipart split -/

theorem splitSeqF_nil (sep : List Nat) (f : Nat) : splitSeqF sep f [] = [[]] := by
  cases f <;> rfl

theorem splitSeqF_fuel (sep : List Nat) (f1 : Nat) :
    ∀ (s : List Nat) (f2 : Nat), s.length ≤ f1 → s.length ≤ f2 →
      splitSeqF sep f1 s = splitSeqF sep f2 s := by
  induction f1 with
  | zero =>
    intro s f2 h1 _
    have hs : s = [] := List.eq_nil_of_length_eq_zero (Nat.le_zero.mp h1)
    subst hs
    rw [splitSeqF_nil, splitSeqF_nil]
  | succ g ih =>
    intro s f2 h1 h2
    cases s with
    | nil => rw [splitSeqF_nil, splitSeqF_nil]
    | cons c rest =>
      cases f2 with
      | zero => simp at h2
      | succ h =>
        simp only [splitSeqF]
        by_cases hcond : sep ≠ [] ∧ sep.isPrefixOf (c :: rest) = true
        · rw [if_pos hcond, if_pos hcond]
          have hsep1 : 1 ≤ sep.length := by
            cases sep with
            | nil => exact absurd rfl hcond.1
            | cons a b => simp
          have hd : ((c :: rest).drop sep.length).length ≤ g := by
            simp only [List.length_drop, List.length_cons] at *
            omega
          have hd2 : ((c :: rest).drop sep.length).length ≤ h := by
            simp only [List.length_drop, List.length_cons] at *
            omega
          rw [ih _ _ hd hd2]
        · rw [if_neg hcond, if_neg hcond]
          have hr : rest.length ≤ g := by simp at h1; omega
          have hr2 : rest.length ≤ h := by simp at h2; omega
          rw [ih _ _ hr hr2]

theorem splitSeqF_no_occ (sep : List Nat) :
    ∀ (s : List Nat) (f : Nat), s.length ≤ f →
      (∀ w, w <:+ s → w ≠ [] → sep.isPrefixOf w = false) →
      splitSeqF sep f s = [s] := by
  intro s
  induction s with
  | nil => intro f _ _; rw [splitSeqF_nil]
  | cons c rest ih =>
    intro f hf hno
    cases f with
    | zero => simp at hf
    | succ g =>
      simp only [splitSeqF]
      have hpre : sep.isPrefixOf (c :: rest) = false :=
        hno _ (List.suffix_refl _) (by simp)
      have hcond : ¬ (sep ≠ [] ∧ sep.isPrefixOf (c :: rest) = true) := by
        simp [hpre]
      rw [if_neg hcond]
      rw [ih g (by simp at hf; omega)
        (fun w hw hne => hno w (hw.trans (List.suffix_cons c rest)) hne)]

theorem splitSeqF_app (sep v : List Nat) (hsep : sep ≠ []) :
    ∀ (u : List Nat) (f : Nat), (u ++ (sep ++ v)).length ≤ f →
      (∀ w, w <:+ u ++ (sep ++ v) → (sep ++ v).length < w.length →
        sep.isPrefixOf w = false) →
      splitSeqF sep f (u ++ (sep ++ v)) = u :: splitSeqF sep v.length v := by
  intro u
  induction u with
  | nil =>
    intro f hf hno
    rw [List.nil_append]
    cases f with
    | zero =>
      exfalso
      cases sep with
      | nil => exact absurd rfl hsep
      | cons a b => simp at hf
    | succ g =>
      cases sep with
      | nil => exact absurd rfl hsep
      | cons a sep2 =>
        rw [List.cons_append]
        simp only [splitSeqF]
        have hcond : (a :: sep2) ≠ [] ∧ (a :: sep2).isPrefixOf (a :: (sep2 ++ v)) = true :=
          ⟨List.cons_ne_nil a sep2,
            List.isPrefixOf_iff_prefix.mpr (by rw [← List.cons_append]; exact List.prefix_append _ _)⟩
        rw [if_pos hcond]
        rw [show (a :: (sep2 ++ v)) = (a :: sep2) ++ v from rfl, List.drop_left]
        have hg : v.length ≤ g := by
          simp only [List.cons_append, List.length_cons, List.length_append] at hf
          omega
        rw [splitSeqF_fuel (a :: sep2) g v v.length hg (Nat.le_refl _)]
  | cons c u2 ih =>
    intro f hf hno
    cases f with
    | zero => simp at hf
    | succ g =>
      rw [List.cons_append]
      simp only [splitSeqF]
      have hpre : sep.isPrefixOf (c :: (u2 ++ (sep ++ v))) = false := by
        apply hno
        · rw [← List.cons_append]
        · simp only [List.cons_append, List.length_cons, List.length_append]
          omega
      have hcond : ¬ (sep ≠ [] ∧ sep.isPrefixOf (c :: (u2 ++ (sep ++ v))) = true) := by
        simp [hpre]
      rw [if_neg hcond]
      rw [ih g (by simp at hf ⊢; omega)
        (fun w hw hl => hno w (by rw [List.cons_append]; exact hw.trans (List.suffix_cons c _)) hl)]

theorem pfx_append_cases (p a b : List Nat) (h : p <+: a ++ b) :
    (p.length ≤ a.length ∧ p <+: a) ∨
      (a.length < p.length ∧ a <+: p ∧ p.drop a.length <+: b) := by
  rcases le_or_lt p.length a.length with hl | hl
  · exact Or.inl ⟨hl, List.prefix_of_prefix_length_le h (List.prefix_append a b) hl⟩
  · right
    have hap : a <+: p :=
      List.prefix_of_prefix_length_le (List.prefix_append a b) h (Nat.le_of_lt hl)
    refine ⟨hl, hap, ?_⟩
    obtain ⟨t, ht⟩ := hap
    have hdt : p.drop a.length = t := by rw [← ht, List.drop_left]
    rw [hdt]
    rw [← ht] at h
    exact (List.prefix_append_right_inj a).mp h

theorem sfx_append_cases (w u v : List Nat) (h : w <:+ u ++ v) :
    w <:+ v ∨ ∃ u2, u2 <:+ u ∧ u2 ≠ [] ∧ w = u2 ++ v := by
  rcases le_or_lt w.length v.length with hl | hl
  · exact Or.inl (List.suffix_of_suffix_length_le h (List.suffix_append u v) hl)
  · right
    obtain ⟨t, ht⟩ := h
    have hlt : t.length ≤ u.length := by
      have := congrArg List.length ht
      simp only [List.length_append] at this
      omega
    have htu : t <+: u :=
      List.prefix_of_prefix_length_le ⟨w, ht⟩ (List.prefix_append u v) hlt
    obtain ⟨u2, hu2⟩ := htu
    refine ⟨u2, ⟨t, hu2⟩, ?_, ?_⟩
    · intro hnil
      subst hnil
      rw [List.append_nil] at hu2
      subst hu2
      have hwv : w = v := List.append_cancel_left ht
      rw [hwv] at hl
      exact absurd hl (lt_irrefl _)
    · have hw2 : t ++ w = t ++ (u2 ++ v) := by rw [ht, ← hu2, List.append_assoc]
      exact List.append_cancel_left hw2

theorem containsSeq_step (s pat : List Nat) :
    containsSeq s pat =
      if pat.isPrefixOf s = true then true
      else match s with | [] => false | _ :: rest => containsSeq rest pat := by
  rw [containsSeq.eq_def]

theorem containsSeq_of_parts (s u pat : List Nat) (hs : u <:+ s)
    (hp : pat.isPrefixOf u = true) : containsSeq s pat = true := by
  obtain ⟨t, ht⟩ := hs
  subst ht
  induction t with
  | nil =>
    rw [List.nil_append, containsSeq_step, if_pos hp]
  | cons c t2 ih =>
    rw [List.cons_append, containsSeq_step]
    by_cases hc : pat.isPrefixOf (c :: (t2 ++ u)) = true
    · rw [if_pos hc]
    · rw [if_neg hc]
      exact ih

theorem dd_drop_head (X : List Nat) (k : Nat) (hk0 : 0 < k)
    (hk : k < (45 :: 45 :: X).length) :
    ∃ y ys, (45 :: 45 :: X).drop k = y :: ys ∧ (y = 45 ∨ y ∈ X) := by
  match k, hk0 with
  | 1, _ => exact ⟨45, X, rfl, Or.inl rfl⟩
  | (j + 2), _ =>
    have hj : j < X.length := by simp at hk; omega
    refine ⟨X[j], X.drop (j + 1), ?_, Or.inr (List.getElem_mem hj)⟩
    show X.drop j = X[j] :: X.drop (j + 1)
    exact List.drop_eq_getElem_cons hj

theorem no_self_overlap (X t2 : List Nat) (hXne : X ≠ []) (hX45 : 45 ∉ X) (k : Nat)
    (hk0 : 0 < k) (hk : k < (45 :: 45 :: X).length) :
    ¬ ((45 :: 45 :: X).drop k <+: (45 :: 45 :: X) ++ t2) := by
  intro hpre
  match k, hk0 with
  | 1, _ =>
    have h1 : (45 :: X) <+: (45 :: 45 :: (X ++ t2)) := hpre
    have h2 : X <+: (45 :: (X ++ t2)) := (List.cons_prefix_cons.mp h1).2
    cases X with
    | nil => exact hXne rfl
    | cons x xs =>
      have hx : x = 45 := (List.cons_prefix_cons.mp h2).1
      exact hX45 (hx ▸ List.mem_cons_self x xs)
  | (j + 2), _ =>
    have hj : j < X.length := by simp at hk; omega
    have hdrop : (45 :: 45 :: X).drop (j + 2) = X[j] :: X.drop (j + 1) :=
      List.drop_eq_getElem_cons hj
    rw [hdrop] at hpre
    have hx : X[j] = 45 := (List.cons_prefix_cons.mp hpre).1
    exact hX45 (hx ▸ List.getElem_mem hj)

theorem sfx_getLast_mem (u2 U P : List Nat) (hsuf : u2 <:+ U) (hne : u2 ≠ [])
    (hpre : u2 <+: P) (x : Nat) (hU : U.getLast? = some x) : x ∈ P := by
  obtain ⟨t, ht⟩ := hsuf
  rw [← ht, List.getLast?_append_of_ne_nil t hne] at hU
  exact hpre.subset (List.mem_of_mem_getLast? hU)

theorem c2_no_D_in_A (X C : List Nat) (hXne : X ≠ []) (hX13 : 13 ∉ X) (hX10 : 10 ∉ X)
    (hCfree : containsSeq C (45 :: 45 :: X) = false) :
    ∀ a2, a2 <:+ c2PartA C → ¬ ((45 :: 45 :: X) <+: a2) := by
  intro a2 hsuf hpre
  have hA : c2PartA C = (uc "\r\n" ++ c2Header ++ uc "\r\n\r\n") ++ (C ++ uc "\r\n") := by
    simp [c2PartA, List.append_assoc]
  rw [hA] at hsuf
  have hXlen : 1 ≤ X.length := List.length_pos.mpr hXne
  rcases sfx_append_cases _ _ _ hsuf with hcv | ⟨p2, hp2suf, hp2ne, rfl⟩
  · -- a2 lies inside the content plus trailing CRLF
    rcases sfx_append_cases _ _ _ hcv with htl | ⟨c2, hc2suf, hc2ne, rfl⟩
    · -- a2 inside the trailing CRLF: too short to contain the dash-boundary
      have h1 := List.IsSuffix.length_le htl
      have h2 := List.IsPrefix.length_le hpre
      simp only [List.length_cons] at h2
      have : (uc "\r\n").length = 2 := rfl
      omega
    · rcases pfx_append_cases _ _ _ hpre with ⟨hlen, hDc⟩ | ⟨hlen, _, hdrop⟩
      · -- the dash-boundary sits wholly inside the content
        have := containsSeq_of_parts C c2 _ hc2suf (List.isPrefixOf_iff_prefix.mpr hDc)
        rw [hCfree] at this
        exact Bool.false_ne_true this
      · -- the dash-boundary straddles content end and the trailing CRLF
        obtain ⟨y, ys, heq, hy⟩ :=
          dd_drop_head X c2.length (List.length_pos.mpr hc2ne) hlen
        rw [heq] at hdrop
        have hdrop2 : y :: ys <+: 13 :: [10] := hdrop
        have hy13 : y = 13 := (List.cons_prefix_cons.mp hdrop2).1
        rcases hy with h45 | hmem
        · omega
        · rw [hy13] at hmem
          exact hX13 hmem
  · -- a2 reaches back into the header region
    rcases pfx_append_cases _ _ _ hpre with ⟨hlen, hDp⟩ | ⟨hlen, hp2preD, _⟩
    · -- the double dash sits wholly inside the header region
      have h4545 : [45, 45] <+: p2 := List.IsPrefix.trans ⟨X, rfl⟩ hDp
      have := containsSeq_of_parts _ p2 [45, 45] hp2suf (List.isPrefixOf_iff_prefix.mpr h4545)
      rw [show containsSeq (uc "\r\n" ++ c2Header ++ uc "\r\n\r\n") [45, 45] = false from by decide]
        at this
      exact Bool.false_ne_true this
    · -- a short suffix of the header region would have to start the boundary
      have hmem : 10 ∈ (45 :: 45 :: X) :=
        sfx_getLast_mem p2 _ _ hp2suf hp2ne hp2preD 10 (by decide)
      simp at hmem
      exact hX10 hmem

theorem c2_no_mid_occ (X C : List Nat) (hXne : X ≠ []) (hX45 : 45 ∉ X) (hX13 : 13 ∉ X)
    (hX10 : 10 ∉ X) (hCfree : containsSeq C (45 :: 45 :: X) = false) :
    ∀ w, w <:+ c2PartA C ++ ((45 :: 45 :: X) ++ uc "--\r\n") →
      ((45 :: 45 :: X) ++ uc "--\r\n").length < w.length →
      (45 :: 45 :: X).isPrefixOf w = false := by
  intro w hw hlen
  by_contra hb
  rw [Bool.not_eq_false] at hb
  have hpre := List.isPrefixOf_iff_prefix.mp hb
  rcases sfx_append_cases _ _ _ hw with hz | ⟨a2, ha2suf, ha2ne, rfl⟩
  · exact absurd (List.IsSuffix.length_le hz) (by omega)
  · rcases pfx_append_cases _ _ _ hpre with ⟨hl, hDa⟩ | ⟨hl, ha2D, hdrop⟩
    · exact c2_no_D_in_A X C hXne hX13 hX10 hCfree a2 ha2suf hDa
    · exact no_self_overlap X _ hXne hX45 a2.length (List.length_pos.mpr ha2ne) hl hdrop

theorem c2_split (X C : List Nat) (hXne : X ≠ []) (hX45 : 45 ∉ X) (hX13 : 13 ∉ X)
    (hX10 : 10 ∉ X) (hCfree : containsSeq C (45 :: 45 :: X) = false) :
    jsSplit (c2Body X C) (uc "--" ++ X) = [[], c2PartA C, uc "--\r\n"] := by
  have hDne : (45 :: 45 :: X) ≠ [] := by simp
  have hbody : c2Body X C =
      (45 :: 45 :: X) ++ (c2PartA C ++ ((45 :: 45 :: X) ++ uc "--\r\n")) := by
    simp [c2Body, c2PartA, uc, List.append_assoc]
  have hT : ∀ w, w <:+ uc "--\r\n" → w ≠ [] → (45 :: 45 :: X).isPrefixOf w = false := by
    intro w hw hne
    have hw4 : w <:+ [45, 45, 13, 10] := hw
    rcases List.suffix_cons_iff.mp hw4 with rfl | hw1
    · cases X with
      | nil => exact absurd rfl hXne
      | cons x xs =>
        by_cases hx : x = 13
        · exact absurd (hx ▸ List.mem_cons_self x xs) hX13
        · simp [List.isPrefixOf, hx]
    · rcases List.suffix_cons_iff.mp hw1 with rfl | hw2
      · simp [List.isPrefixOf]
      · rcases List.suffix_cons_iff.mp hw2 with rfl | hw3
        · simp [List.isPrefixOf]
        · rcases List.suffix_cons_iff.mp hw3 with rfl | hw4
          · simp [List.isPrefixOf]
          · exact absurd (List.suffix_nil.mp hw4) hne
  show splitSeqF (uc "--" ++ X) (c2Body X C).length (c2Body X C) = _
  have hsep : uc "--" ++ X = 45 :: 45 :: X := rfl
  rw [hsep, hbody]
  have h1 := splitSeqF_app (45 :: 45 :: X) (c2PartA C ++ ((45 :: 45 :: X) ++ uc "--\r\n"))
    hDne []
    ((45 :: 45 :: X) ++ (c2PartA C ++ ((45 :: 45 :: X) ++ uc "--\r\n"))).length
    (by rw [List.nil_append])
    (by
      intro w hw hl
      rw [List.nil_append] at hw
      have := List.IsSuffix.length_le hw
      omega)
  rw [List.nil_append] at h1
  rw [h1]
  have h2 := splitSeqF_app (45 :: 45 :: X) (uc "--\r\n") hDne (c2PartA C)
    (c2PartA C ++ ((45 :: 45 :: X) ++ uc "--\r\n")).length
    (Nat.le_refl _)
    (c2_no_mid_occ X C hXne hX45 hX13 hX10 hCfree)
  rw [h2]
  rw [splitSeqF_no_occ (45 :: 45 :: X) (uc "--\r\n") (uc "--\r\n").length (Nat.le_refl _) hT]

theorem jsMatch_skip (s : List Nat) :
    ∀ u : List Nat,
      (∀ w, w <:+ u ++ s → s.length < w.length → tryFilenameAt w = none) →
      jsMatchFilename (u ++ s) = jsMatchFilename s := by
  intro u
  induction u with
  | nil => intro _; rw [List.nil_append]
  | cons c u2 ih =>
    intro hno
    rw [List.cons_append]
    rw [jsMatchFilename]
    have h0 : tryFilenameAt (c :: (u2 ++ s)) = none := by
      apply hno
      · rw [List.cons_append]
      · simp only [List.cons_append, List.length_cons, List.length_append]
        omega
    rw [h0]
    exact ih (fun w hw hl =>
      hno w (by rw [List.cons_append]; exact hw.trans (List.suffix_cons c _)) hl)

theorem c2_partA_shape (C : List Nat) :
    c2PartA C =
      (uc "\r\n" ++ uc "Content-Disposition: form-data; name=\"file\"; ") ++
        (uc "filename=\"" ++ (uc "report.txt" ++
          (34 :: (uc "\r\n\r\n" ++ (C ++ uc "\r\n"))))) := by
  have hH : c2Header =
      uc "Content-Disposition: form-data; name=\"file\"; " ++
        (uc "filename=\"" ++ (uc "report.txt" ++ [34])) := by decide
  rw [c2PartA, hH]
  simp [List.append_assoc]

theorem c2_match (C : List Nat) : jsMatchFilename (c2PartA C) = some (uc "report.txt") := by
  rw [c2_partA_shape]
  rw [jsMatch_skip]
  · rfl
  · intro w hw hl
    rcases sfx_append_cases _ _ _ hw with hv | ⟨u2, hu2suf, hu2ne, rfl⟩
    · exact absurd (List.IsSuffix.length_le hv) (by omega)
    · have hnp : (uc "filename=\"").isPrefixOf
          (u2 ++ (uc "filename=\"" ++ (uc "report.txt" ++
            (34 :: (uc "\r\n\r\n" ++ (C ++ uc "\r\n")))))) = false := by
        by_contra hb
        rw [Bool.not_eq_false] at hb
        have hpre := List.isPrefixOf_iff_prefix.mp hb
        rcases pfx_append_cases _ _ _ hpre with ⟨hl2, hlitu⟩ | ⟨hl2, hu2lit, _⟩
        · have := containsSeq_of_parts _ u2 _ hu2suf (List.isPrefixOf_iff_prefix.mpr hlitu)
          rw [show containsSeq
              (uc "\r\n" ++ uc "Content-Disposition: form-data; name=\"file\"; ")
              (uc "filename=\"") = false from by decide] at this
          exact Bool.false_ne_true this
        · have hmem : 32 ∈ uc "filename=\"" :=
            sfx_getLast_mem u2 _ _ hu2suf hu2ne hu2lit 32 (by decide)
          exact absurd hmem (by decide)
      simp [tryFilenameAt, hnp]

theorem idxAux_skip (pat s : List Nat) :
    ∀ u : List Nat,
      (∀ w, w <:+ u ++ s → s.length < w.length → pat.isPrefixOf w = false) →
      idxAux pat (u ++ s) = (idxAux pat s).map (· + u.length) := by
  intro u
  induction u with
  | nil =>
    intro _
    rw [List.nil_append]
    cases hx : idxAux pat s <;> simp
  | cons c u2 ih =>
    intro hno
    rw [List.cons_append]
    rw [idxAux]
    have h0 : pat.isPrefixOf (c :: (u2 ++ s)) = false := by
      apply hno
      · rw [List.cons_append]
      · simp only [List.cons_append, List.length_cons, List.length_append]
        omega
    rw [if_neg (by simp [h0])]
    rw [ih (fun w hw hl =>
      hno w (by rw [List.cons_append]; exact hw.trans (List.suffix_cons c _)) hl)]
    cases hx : idxAux pat s
    · simp
    · simp only [Option.map_some', List.length_cons, Option.some.injEq]
      omega

theorem range_rev_succ (n : Nat) : (List.range (n + 1)).reverse = n :: (List.range n).reverse := by
  rw [List.range_succ, List.reverse_append]
  rfl

theorem c2A0_len (C : List Nat) : (c2A0 C).length = 6 + c2Header.length + C.length := by
  simp only [c2A0, List.length_append]
  rw [show (uc "\r\n").length = 2 from rfl, show (uc "\r\n\r\n").length = 4 from rfl]
  omega

theorem c2_partA_as_A0 (C : List Nat) : c2PartA C = c2A0 C ++ uc "\r\n" := by
  rw [c2PartA, c2A0]
  simp [List.append_assoc]

theorem c2_lastIdx (C : List Nat) :
    jsLastIndexOfSeq (c2PartA C) (uc "\r\n") = ((6 + c2Header.length + C.length : Nat) : Int) := by
  have hlenA : (c2PartA C).length = (c2A0 C).length + 2 := by
    rw [c2_partA_as_A0, List.length_append]
    rfl
  have e2 : (c2PartA C).drop ((c2A0 C).length + 2) = [] := by
    rw [c2_partA_as_A0, List.drop_append 2]
    rfl
  have e1 : (c2PartA C).drop ((c2A0 C).length + 1) = [10] := by
    rw [c2_partA_as_A0, List.drop_append 1]
    rfl
  have e0 : (c2PartA C).drop ((c2A0 C).length) = [13, 10] := by
    rw [c2_partA_as_A0, List.drop_left]
    rfl
  have hfind : ((List.range ((c2PartA C).length + 1)).reverse).find?
      (fun p => (uc "\r\n").isPrefixOf ((c2PartA C).drop p)) = some (c2A0 C).length := by
    rw [hlenA]
    rw [show (c2A0 C).length + 2 + 1 = ((c2A0 C).length + 2) + 1 from rfl, range_rev_succ]
    rw [List.find?_cons_of_neg _ (by rw [e2]; decide)]
    rw [show (c2A0 C).length + 2 = ((c2A0 C).length + 1) + 1 from rfl, range_rev_succ]
    rw [List.find?_cons_of_neg _ (by rw [e1]; decide)]
    rw [range_rev_succ]
    rw [List.find?_cons_of_pos _ (by rw [e0]; decide)]
  simp only [jsLastIndexOfSeq, hfind]
  rw [c2A0_len]

theorem c2_idx (C : List Nat) :
    idxAux (uc "\r\n\r\n") (c2PartA C) = some (2 + c2Header.length) := by
  have hshape : c2PartA C = (uc "\r\n" ++ c2Header) ++ (uc "\r\n\r\n" ++ (C ++ uc "\r\n")) := by
    rw [c2PartA]
    simp [List.append_assoc]
  rw [hshape]
  rw [idxAux_skip (uc "\r\n\r\n") (uc "\r\n\r\n" ++ (C ++ uc "\r\n")) (uc "\r\n" ++ c2Header) ?hno]
  case hno =>
    intro w hw hl
    rcases sfx_append_cases _ _ _ hw with hv | ⟨u2, hu2suf, hu2ne, rfl⟩
    · exact absurd (List.IsSuffix.length_le hv) (by omega)
    · by_contra hb
      rw [Bool.not_eq_false] at hb
      have hpre := List.isPrefixOf_iff_prefix.mp hb
      rcases pfx_append_cases _ _ _ hpre with ⟨hl2, hpu⟩ | ⟨hl2, hu2p, _⟩
      · have := containsSeq_of_parts _ u2 _ hu2suf (List.isPrefixOf_iff_prefix.mpr hpu)
        rw [show containsSeq (uc "\r\n" ++ c2Header) (uc "\r\n\r\n") = false from by decide]
          at this
        exact Bool.false_ne_true this
      · have hmem : 34 ∈ uc "\r\n\r\n" :=
          sfx_getLast_mem u2 _ _ hu2suf hu2ne hu2p 34 (by decide)
        exact absurd hmem (by decide)
  · rw [show uc "\r\n\r\n" ++ (C ++ uc "\r\n") =
        13 :: (10 :: 13 :: 10 :: (C ++ uc "\r\n")) from rfl]
    rw [idxAux]
    rw [if_pos (show List.isPrefixOf (uc "\r\n\r\n")
        (13 :: (10 :: 13 :: 10 :: (C ++ uc "\r\n"))) = true from
      List.isPrefixOf_iff_prefix.mpr ⟨C ++ uc "\r\n", rfl⟩)]
    simp only [Option.map_some', Option.some.injEq, List.length_append]
    rw [show (uc "\r\n").length = 2 from rfl]
    omega

theorem jsSlice_nat (s : List Nat) (a b : Nat) (hab : a ≤ b) (hb : b ≤ s.length) :
    jsSlice s (a : Int) (b : Int) = (s.drop a).take (b - a) := by
  simp only [jsSlice]
  rw [if_neg (by omega : ¬ ((a : Int) < 0)), if_neg (by omega : ¬ ((b : Int) < 0))]
  rw [min_eq_left (by exact_mod_cast hb),
    min_eq_left (by exact_mod_cast Nat.le_trans hab hb)]
  rw [Int.toNat_natCast, Int.toNat_natCast]

theorem c2_slice (C : List Nat) (a b : Int)
    (ha : a = ((6 + c2Header.length : Nat) : Int))
    (hb : b = ((6 + c2Header.length + C.length : Nat) : Int)) :
    jsSlice (c2PartA C) a b = C := by
  subst ha hb
  have hsh : c2PartA C = (uc "\r\n" ++ (c2Header ++ uc "\r\n\r\n")) ++ (C ++ uc "\r\n") := by
    rw [c2PartA]
    simp [List.append_assoc]
  have hplen : (uc "\r\n" ++ (c2Header ++ uc "\r\n\r\n")).length = 6 + c2Header.length := by
    simp only [List.length_append]
    rw [show (uc "\r\n").length = 2 from rfl, show (uc "\r\n\r\n").length = 4 from rfl]
    omega
  rw [jsSlice_nat _ _ _ (by omega) (by
    rw [hsh]
    simp only [List.length_append,
      show (uc "\r\n").length = 2 from rfl, show (uc "\r\n\r\n").length = 4 from rfl]
    omega)]
  rw [show 6 + c2Header.length + C.length - (6 + c2Header.length) = C.length from by omega]
  rw [hsh, show 6 + c2Header.length = (uc "\r\n" ++ (c2Header ++ uc "\r\n\r\n")).length
    from hplen.symm]
  rw [List.drop_left]
  rw [show C.length = C.length from rfl]
  exact List.take_left C (uc "\r\n")

theorem map_mod_id (C : List Nat) (hC : ∀ b ∈ C, b < 256) : C.map (· % 256) = C := by
  induction C with
  | nil => rfl
  | cons c rest ih =>
    rw [List.map_cons, Nat.mod_eq_of_lt (hC c (List.mem_cons_self c rest)),
      ih (fun b hb => hC b (List.mem_cons_of_mem c hb))]

theorem c2_partA_has_lit (C : List Nat) :
    containsSeq (c2PartA C) (uc "filename=\"") = true := by
  apply containsSeq_of_parts _
    (uc "filename=\"" ++ (uc "report.txt" ++ (34 :: (uc "\r\n\r\n" ++ (C ++ uc "\r\n")))))
  · exact ⟨uc "\r\n" ++ uc "Content-Disposition: form-data; name=\"file\"; ",
      (c2_partA_shape C).symm⟩
  · exact List.isPrefixOf_iff_prefix.mpr (List.prefix_append _ _)

theorem processParts_cons_pos (wd part : List Nat) (rest : List (List Nat))
    (fs fs2 : FsNode) (tr : List FsOp) (fn : List Nat) (cs ce : Int)
    (hlit : containsSeq part (uc "filename=\"") = true)
    (hmatch : jsMatchFilename part = some fn)
    (hcs : jsIndexOfSeq part (uc "\r\n\r\n") + 4 = cs)
    (hce : jsLastIndexOfSeq part (uc "\r\n") = ce)
    (hsw : jsStartsWith (pathJoin wd fn) wd = true)
    (hwrite : fsWriteFile fs (segsOf (pathJoin wd fn))
        ((jsSlice part cs ce).map (· % 256)) = some fs2) :
    processParts wd (part :: rest) fs tr =
      processParts wd rest fs2 (tr ++ [.opWriteFile (pathJoin wd fn)]) := by
  rw [processParts]
  rw [if_pos hlit]
  simp only [hmatch, Option.getD_some, hcs, hce, hsw, if_true, hwrite]

/-- C2.  Multipart ingest byte preservation: for every boundary `X` (nonempty,
free of dashes and CR/LF, per the multipart grammar) and every content byte
list `C` (bytes below 256, not containing the dash-boundary, as multipart
well-formedness requires), posting the single-part body declaring file name
`report.txt` writes `/data/ws/report.txt` with exactly the bytes `C`: the
latin1 ("binary") decode-split-slice-encode pipeline never corrupts any byte,
and the response is `{ok: true}`. -/
theorem c2_multipart_byte_preservation (X C : List Nat)
    (hXne : X ≠ []) (hX45 : 45 ∉ X) (hX13 : 13 ∉ X) (hX10 : 10 ∉ X)
    (hC : ∀ b ∈ C, b < 256)
    (hCfree : containsSeq C (uc "--" ++ X) = false) :
    uploadBranch wsRoot (some X) (c2Body X C) c2FsUp [] =
      .handled .okTrue (c2FsAfter C) [.opWriteFile (uc "/data/ws/report.txt")] ∧
    lookup (c2FsAfter C) (segsOf (uc "/data/ws/report.txt")) = some (.file C) := by
  constructor
  · show processParts wsRoot (jsSplit (c2Body X C) (uc "--" ++ X)) c2FsUp [] = _
    rw [c2_split X C hXne hX45 hX13 hX10 hCfree]
    rw [processParts, if_neg (by decide)]
    have hcs2 : jsIndexOfSeq (c2PartA C) (uc "\r\n\r\n") + 4 =
        ((6 + c2Header.length : Nat) : Int) := by
      simp only [jsIndexOfSeq, c2_idx C]
      push_cast
      omega
    have hwrite : fsWriteFile c2FsUp (segsOf (pathJoin wsRoot (uc "report.txt")))
        ((jsSlice (c2PartA C) ((6 + c2Header.length : Nat) : Int)
          ((6 + c2Header.length + C.length : Nat) : Int)).map (· % 256)) =
        some (c2FsAfter C) := by
      rw [c2_slice C _ _ rfl rfl, map_mod_id C hC]
      rfl
    rw [processParts_cons_pos wsRoot (c2PartA C) _ c2FsUp (c2FsAfter C) []
      (uc "report.txt") _ _ (c2_partA_has_lit C) (c2_match C) hcs2 (c2_lastIdx C)
      (by decide) hwrite]
    rw [processParts, if_neg (by decide)]
    rw [processParts]
    rfl
  · rfl

/-- C2, witness: boundary `X`, content bytes 0x00 0x01 0xFF, concretely. -/
theorem c2_witness :
    ((uc "X" : List Nat) ≠ [] ∧ 45 ∉ uc "X" ∧ 13 ∉ uc "X" ∧ 10 ∉ uc "X" ∧
      (∀ b ∈ [0, 1, 255], b < 256) ∧
      containsSeq [0, 1, 255] (uc "--" ++ uc "X") = false) ∧
    (uploadBranch wsRoot (some (uc "X")) (c2Body (uc "X") [0, 1, 255]) c2FsUp [] =
        .handled .okTrue (c2FsAfter [0, 1, 255]) [.opWriteFile (uc "/data/ws/report.txt")] ∧
      lookup (c2FsAfter [0, 1, 255]) (segsOf (uc "/data/ws/report.txt")) =
        some (.file [0, 1, 255])) :=
  ⟨⟨by decide, by decide, by decide, by decide, by decide, by decide⟩,
    c2_multipart_byte_preservation (uc "X") [0, 1, 255] (by decide) (by decide)
      (by decide) (by decide) (by decide) (by decide)⟩
